import Mathlib

/-!
A shallow embedding of the `wordpiece-rs` WordPiece tokenizer
(`src/lib.rs`) and proofs about it.

Modelling conventions:
* Rust `String`/`&str` values that the code iterates over by `char` are
  `List Char`.
* `HashMap<char, TrieNode>` children are association lists in first-insertion
  order; `HashMap` iteration order in the Rust source is unspecified, and the
  association-list order is the determinization used here (insertion order).
* `HashMap<String, i32>` / `HashMap<i32, String>` are association lists with
  replace-on-insert semantics (`alInsert` / `alLookup`).
* `usize` arithmetic that can wrap (`len - 2` and `start += …` in
  `wordpiece_tokenize`) is modelled with explicit `% 2 ^ 64` in release-mode
  wrapping semantics.
* `fail_link: Option<Box<TrieNode>>` together with
  `child.fail_link = Some(Box::new(fail_node.clone()))` stores an owned deep
  copy of the failure target.  In the embedding a `Trie` is an immutable
  value, so storing the current value of the target models the clone exactly:
  later mutations of the live node do not affect the stored snapshot.
* Loops whose termination is not structural take an explicit fuel argument;
  every fuel supplied at a call site is large enough that the fuel branch is
  never reached, as justified in a comment at each site.
-/

/-- `TrieNode` from `src/lib.rs`: children map, terminal flag, token id,
maximum word length through this node, and the owned failure-link copy. -/
inductive Trie where
  | mk (children : List (Char × Trie)) (is_word : Bool) (token_id : Int)
      (max_char_len : Nat) (fail_link : Option Trie)

def Trie.children : Trie → List (Char × Trie)
  | .mk cs _ _ _ _ => cs

def Trie.is_word : Trie → Bool
  | .mk _ w _ _ _ => w

def Trie.token_id : Trie → Int
  | .mk _ _ i _ _ => i

def Trie.max_char_len : Trie → Nat
  | .mk _ _ _ m _ => m

def Trie.fail_link : Trie → Option Trie
  | .mk _ _ _ _ f => f

/-- `TrieNode::new()`. -/
def Trie.new : Trie := .mk [] false (-1) 0 none

-- Size of a trie value, counting every node, including the nodes of the
-- stored failure-link copies.  Used as fuel for loops that move to a strict
-- subvalue on every iteration.
mutual
def Trie.vsize : Trie → Nat
  | .mk cs _ _ _ fl => 1 + vsizeChildren cs + vsizeOpt fl

def vsizeChildren : List (Char × Trie) → Nat
  | [] => 0
  | (_, t) :: cs => Trie.vsize t + vsizeChildren cs

def vsizeOpt : Option Trie → Nat
  | none => 0
  | some t => Trie.vsize t
end

-- Number of nodes of the children tree (failure links not followed).
mutual
def Trie.nodeCount : Trie → Nat
  | .mk cs _ _ _ _ => 1 + nodeCountChildren cs

def nodeCountChildren : List (Char × Trie) → Nat
  | [] => 0
  | (_, t) :: cs => Trie.nodeCount t + nodeCountChildren cs
end

/-- `children.get(&ch)` on the association-list child map. -/
def lookupChild : List (Char × Trie) → Char → Option Trie
  | [], _ => none
  | (c', t) :: cs, c => if c' = c then some t else lookupChild cs c

/-- Store a child under a key: replace in place when the key is present
(like writing through `HashMap::entry`), append otherwise. -/
def setChild : List (Char × Trie) → Char → Trie → List (Char × Trie)
  | [], c, t => [(c, t)]
  | (c', t') :: cs, c, t => if c' = c then (c', t) :: cs else (c', t') :: setChild cs c t

/-- The walk of `TrieNode::insert`: descend (creating nodes with
`or_insert_with(TrieNode::new)`), update `max_char_len` on every visited
node, and mark the final node with `is_word`/`token_id`.  `wlen` is the
`word.chars().count()` computed once at the start. -/
def Trie.insertGo : List Char → Nat → Int → Trie → Trie
  | [], wlen, tid, .mk cs _ _ m fl => .mk cs true tid (max m wlen) fl
  | c :: rest, wlen, tid, .mk cs iw told m fl =>
      let old := match lookupChild cs c with
        | some t => t
        | none => Trie.new
      .mk (setChild cs c (Trie.insertGo rest wlen tid old)) iw told (max m wlen) fl

/-- `TrieNode::insert`. -/
def Trie.insert (t : Trie) (word : List Char) (token_id : Int) : Trie :=
  Trie.insertGo word word.length token_id t

/-- Navigate the children tree along a path of edge labels. -/
def Trie.getNode : Trie → List Char → Option Trie
  | t, [] => some t
  | t, c :: rest =>
    match lookupChild (Trie.children t) c with
    | some child => Trie.getNode child rest
    | none => none

/-- Overwrite the `fail_link` field of the node at the given path
(identity when the path does not exist). -/
def Trie.setFail : Trie → List Char → Option Trie → Trie
  | .mk cs iw tid m _, [], f => .mk cs iw tid m f
  | .mk cs iw tid m fl, c :: rest, f =>
    match lookupChild cs c with
    | some child => .mk (setChild cs c (Trie.setFail child rest f)) iw tid m fl
    | none => .mk cs iw tid m fl

/-- The failure-chain walk of `build_failure_links`:
`while !fail.children.contains_key(ch) && fail.fail_link.is_some() { fail = … }`
followed by `fail.children.get(ch)`.  Returns the matching child found along
the chain, `none` when the chain is exhausted without a match.  Each step
moves to the strict subvalue stored in `fail_link`, so `Trie.vsize` of the
starting node bounds the chain length and the fuel branch of `chaseAux` is
never reached. -/
def chaseAux : Nat → Trie → Char → Option Trie
  | 0, _, _ => none
  | fuel + 1, .mk cs _ _ _ fl, ch =>
    match lookupChild cs ch with
    | some c => some c
    | none =>
      match fl with
      | some f => chaseAux fuel f ch
      | none => none

def Trie.chase (t : Trie) (ch : Char) : Option Trie := chaseAux (Trie.vsize t) t ch

/-- One child assignment of the BFS body: compute the failure node from the
parent's failure link (the matching child along the chain, or `self` — the
current root — when none is found) and store a copy of it at path
`p ++ [c]`.  The parent's `fail_link` is always set when the BFS reaches it
(`.unwrap()` in the source); the `none` arm is the unreachable default. -/
def stepChild (root : Trie) (p : List Char) (pfail : Option Trie) (c : Char) : Trie :=
  let failNode :=
    match pfail with
    | some pf =>
      match Trie.chase pf c with
      | some n => n
      | none => root
    | none => root
  Trie.setFail root (p ++ [c]) (some failNode)

/-- Process the labelled child edges of one dequeued node in order,
threading the root through the per-child assignments (`self` read inside the
loop sees the siblings already assigned). -/
def stepChildren (p : List Char) (pfail : Option Trie) : Trie → List Char → Trie
  | root, [] => root
  | root, c :: cs => stepChildren p pfail (stepChild root p pfail c) cs

/-- The BFS of `build_failure_links`, with the queue holding node paths.
One fuel unit per dequeued node; the loop dequeues each node of the children
tree at most once, so `Trie.nodeCount` fuel is never exhausted. -/
def bfsLoop : Nat → Trie → List (List Char) → Trie
  | 0, root, _ => root
  | _ + 1, root, [] => root
  | fuel + 1, root, p :: queue =>
    match Trie.getNode root p with
    | none => bfsLoop fuel root queue
    | some node =>
      let childChars := (Trie.children node).map (fun pr => pr.1)
      let root' := stepChildren p (Trie.fail_link node) root childChars
      bfsLoop fuel root' (queue ++ childChars.map (fun c => p ++ [c]))

/-- Mark each direct child of the root with
`fail_link = Some(Box::new(TrieNode::new()))` — a fresh empty node. -/
def initChildFails : List (Char × Trie) → List (Char × Trie)
  | [] => []
  | (c, .mk cs iw tid m _) :: rest => (c, .mk cs iw tid m (some Trie.new)) :: initChildFails rest

/-- `TrieNode::build_failure_links`. -/
def Trie.build_failure_links (t : Trie) : Trie :=
  match t with
  | .mk cs iw tid m fl =>
    bfsLoop (Trie.nodeCount t) (Trie.mk (initChildFails cs) iw tid m fl)
      (cs.map (fun pr => [pr.1]))

/-- The scan loop of `find_longest_prefix`, with the unscanned part of the
word as a list (`rem = word[pos..]`).  Descending consumes a character and
may record a longer match; a missing child follows the failure link at the
same position; a missing failure link stops the scan.  Every iteration moves
`node` to a strict subvalue (a child or the stored failure copy), so
`Trie.vsize` of the starting node bounds the iteration count and the fuel
branch is never reached. -/
def probeAux : Nat → Trie → List Char → Nat → Option (Nat × Int) → Option (Nat × Int)
  | _, _, [], _, last => last
  | 0, _, _ :: _, _, last => last
  | fuel + 1, node, c :: rest, pos, last =>
    match lookupChild (Trie.children node) c with
    | some next =>
        probeAux fuel next rest (pos + 1)
          (if Trie.is_word next then some (pos + 1, Trie.token_id next) else last)
    | none =>
      match Trie.fail_link node with
      | some fail => probeAux fuel fail (c :: rest) pos last
      | none => last

/-- `TrieNode::find_longest_prefix`. -/
def Trie.find_longest_prefix (t : Trie) (word : List Char) (start : Nat) : Option (Nat × Int) :=
  probeAux (Trie.vsize t) t (word.drop start) start none

/-- The `Token` struct: text span, resolved id, special flag. -/
structure Token where
  text : List Char
  id : Int
  is_special : Bool
deriving DecidableEq, Repr

/-- The character-level facts the Rust code takes from its Unicode
libraries: the two normalization forms, `to_lowercase`, `char::is_whitespace`,
the regex classes `\p{P}` (any punctuation), `\p{L}`, `\p{N}` and
`\p{Script=Han}`.  The embedding is parameterized over them; `asciiCfg`
below instantiates them faithfully for the ASCII inputs of the concrete
claims. -/
structure CharCfg where
  nfkc : List Char → List Char
  nfd : List Char → List Char
  lower : List Char → List Char
  isWs : Char → Bool
  isPunct : Char → Bool
  isLetter : Char → Bool
  isNumber : Char → Bool
  isHan : Char → Bool

/-- Association-list insert with `HashMap::insert` replace semantics. -/
def alInsert {α β : Type} [DecidableEq α] : List (α × β) → α → β → List (α × β)
  | [], k, v => [(k, v)]
  | (k', v') :: rest, k, v =>
    if k' = k then (k', v) :: rest else (k', v') :: alInsert rest k v

/-- Association-list lookup, `HashMap::get`. -/
def alLookup {α β : Type} [DecidableEq α] : List (α × β) → α → Option β
  | [], _ => none
  | (k', v') :: rest, k => if k' = k then some v' else alLookup rest k

/-- `key.starts_with("##")`. -/
def startsWithHH : List Char → Bool
  | '#' :: '#' :: _ => true
  | _ => false

/-- `key.starts_with(c)` for a single character. -/
def firstIs : List Char → Char → Bool
  | [], _ => false
  | c :: _, c' => c = c'

/-- The special-token test of `WordPieceTokenizer::new`:
`!key.starts_with("##") && (key.starts_with('[') || key.starts_with('<') || punctuation.is_match(&key))`
where `punctuation` is `\p{P}` and `is_match` holds when any character of
the key is punctuation. -/
def isSpecialKey (cfg : CharCfg) (key : List Char) : Bool :=
  !startsWithHH key && (firstIs key '[' || firstIs key '<' || key.any cfg.isPunct)

-- The constructor loop of `WordPieceTokenizer::new` threads four
-- independent accumulators (trie, vocab_lookup, special_tokens, unk_id);
-- each is updated only from itself, so the single Rust loop is split into
-- one fold per accumulator.  The vocabulary is a key-value list in
-- iteration order of the source dictionary.

/-- The trie accumulator: every non-special entry is inserted. -/
def vocabTrie (cfg : CharCfg) (vocab : List (List Char × Int)) : Trie :=
  vocab.foldl
    (fun t kv => if isSpecialKey cfg kv.1 then t else Trie.insert t kv.1 kv.2) Trie.new

/-- The special-token accumulator: every special entry is recorded. -/
def vocabSpecials (cfg : CharCfg) (vocab : List (List Char × Int)) :
    List (List Char × Int) :=
  vocab.foldl
    (fun sp kv => if isSpecialKey cfg kv.1 then alInsert sp kv.1 kv.2 else sp) []

/-- The id-to-string accumulator: `vocab_lookup.insert(value, key)` runs for
every entry. -/
def vocabLookupOf (vocab : List (List Char × Int)) : List (Int × List Char) :=
  vocab.foldl (fun vl kv => alInsert vl kv.2 kv.1) []

/-- The unknown-id accumulator: `if key == unk { unk_id = value }`,
starting from 0. -/
def unkIdOf (vocab : List (List Char × Int)) (unk : List Char) : Int :=
  vocab.foldl (fun u kv => if kv.1 = unk then kv.2 else u) 0

/-- The `WordPieceTokenizer` struct (the three compiled regexes are
represented by the `CharCfg` character classes they consult). -/
structure WordPieceTokenizer where
  cfg : CharCfg
  trie : Trie
  vocab_lookup : List (Int × List Char)
  unk_token : List Char
  unk_token_id : Int
  max_input_chars_per_word : Nat
  special_tokens : List (List Char × Int)
  strip_accents : Bool
  lowercase : Bool

/-- `WordPieceTokenizer::new`: partition the vocabulary, build the trie, and
run the single failure-link pass. -/
def WordPieceTokenizer.new (cfg : CharCfg) (vocab : List (List Char × Int))
    (unk_token : List Char) (max_input_chars_per_word : Nat)
    (strip_accents lowercase : Bool) : WordPieceTokenizer :=
  { cfg := cfg
    trie := Trie.build_failure_links (vocabTrie cfg vocab)
    vocab_lookup := vocabLookupOf vocab
    unk_token := unk_token
    unk_token_id := unkIdOf vocab unk_token
    max_input_chars_per_word := max_input_chars_per_word
    special_tokens := vocabSpecials cfg vocab
    strip_accents := strip_accents
    lowercase := lowercase }

/-- Surround every Han character with single spaces
(`chinese_chars.replace_all(…, " {} ")`). -/
def spaceOutHan (cfg : CharCfg) : List Char → List Char
  | [] => []
  | c :: rest =>
    if cfg.isHan c then ' ' :: c :: ' ' :: spaceOutHan cfg rest
    else c :: spaceOutHan cfg rest

/-- `WordPieceTokenizer::clean_text`: NFKC, whitespace to plain space, Han
isolation. -/
def WordPieceTokenizer.clean_text (tkz : WordPieceTokenizer) (text : List Char) :
    List Char :=
  spaceOutHan tkz.cfg
    ((tkz.cfg.nfkc text).map (fun c => if tkz.cfg.isWs c then ' ' else c))

/-- Rust `char::is_ascii_punctuation`. -/
def isAsciiPunct (c : Char) : Bool :=
  (0x21 ≤ c.toNat && c.toNat ≤ 0x2f) || (0x3a ≤ c.toNat && c.toNat ≤ 0x40) ||
  (0x5b ≤ c.toNat && c.toNat ≤ 0x60) || (0x7b ≤ c.toNat && c.toNat ≤ 0x7e)

/-- Rust `char::is_ascii_control`. -/
def isAsciiControl (c : Char) : Bool :=
  c.toNat ≤ 0x1f || c.toNat = 0x7f

/-- `WordPieceTokenizer::strip_accents_if_needed`: NFD then drop
ASCII-range punctuation and control characters. -/
def WordPieceTokenizer.strip_accents_if_needed (tkz : WordPieceTokenizer)
    (text : List Char) : List Char :=
  if !tkz.strip_accents then text
  else (tkz.cfg.nfd text).filter (fun c => !isAsciiPunct c && !isAsciiControl c)

/-- Longest run of characters satisfying `p`, and the rest. -/
def takeRun (p : Char → Bool) : List Char → List Char × List Char
  | [] => ([], [])
  | c :: rest =>
    if p c then
      let (r, rr) := takeRun p rest
      (c :: r, rr)
    else ([], c :: rest)

/-- Case-insensitive literal prefix match (the pattern is lowercase ASCII);
returns the matched original characters and the rest. -/
def matchCI : List Char → List Char → Option (List Char × List Char)
  | [], input => some ([], input)
  | _ :: _, [] => none
  | p :: ps, c :: cs =>
    if c.toLower = p then
      match matchCI ps cs with
      | some (m, rest) => some (c :: m, rest)
      | none => none
    else none

/-- The contraction alternatives of the segmenter regex, in pattern order. -/
def contractions : List (List Char) :=
  ["'s".toList, "'t".toList, "'re".toList, "'ve".toList, "'m".toList,
   "'ll".toList, "'d".toList]

def tryContractions : List (List Char) → List Char → Option (List Char × List Char)
  | [], _ => none
  | p :: ps, input =>
    match matchCI p input with
    | some r => some r
    | none => tryContractions ps input

/-- Regex alternative ` ?[\p{L}\p{N}]+` with leftmost-first backtracking:
prefer consuming one leading space; the run must be nonempty. -/
def altLN (cfg : CharCfg) (input : List Char) : Option (List Char × List Char) :=
  match input with
  | ' ' :: rest =>
    let (run, rr) := takeRun (fun c => cfg.isLetter c || cfg.isNumber c) rest
    if run.isEmpty then none else some (' ' :: run, rr)
  | _ =>
    let (run, rr) := takeRun (fun c => cfg.isLetter c || cfg.isNumber c) input
    if run.isEmpty then none else some (run, rr)

/-- Regex alternative ` ?[^\s\p{L}\p{N}]+`. -/
def altOther (cfg : CharCfg) (input : List Char) : Option (List Char × List Char) :=
  match input with
  | ' ' :: rest =>
    let (run, rr) := takeRun
      (fun c => !cfg.isWs c && !cfg.isLetter c && !cfg.isNumber c) rest
    if run.isEmpty then none else some (' ' :: run, rr)
  | _ =>
    let (run, rr) := takeRun
      (fun c => !cfg.isWs c && !cfg.isLetter c && !cfg.isNumber c) input
    if run.isEmpty then none else some (run, rr)

/-- Regex alternative `\s+(?!\S)`: a whitespace run not followed by
non-space.  The greedy full run matches when it reaches the end of input;
otherwise backtracking gives up the last whitespace character, which
succeeds only when the run has at least two characters. -/
def altWsEnd (cfg : CharCfg) (input : List Char) : Option (List Char × List Char) :=
  let (run, rr) := takeRun cfg.isWs input
  if run.isEmpty then none
  else if rr.isEmpty then some (run, rr)
  else if 2 ≤ run.length then
    some (run.take (run.length - 1), run.drop (run.length - 1) ++ rr)
  else none

/-- Regex alternative `\s+`. -/
def altWs (cfg : CharCfg) (input : List Char) : Option (List Char × List Char) :=
  let (run, rr) := takeRun cfg.isWs input
  if run.isEmpty then none else some (run, rr)

/-- One match of the segmenter regex
`'s|'t|'re|'ve|'m|'ll|'d| ?[\p{L}\p{N}]+| ?[^\s\p{L}\p{N}]+|\s+(?!\S)|\s+`
at the current position, alternatives tried in order (the `regex` crate's
leftmost-first semantics). -/
def segNext (cfg : CharCfg) (input : List Char) : Option (List Char × List Char) :=
  match tryContractions contractions input with
  | some r => some r
  | none =>
    match altLN cfg input with
    | some r => some r
    | none =>
      match altOther cfg input with
      | some r => some r
      | none =>
        match altWsEnd cfg input with
        | some r => some r
        | none => altWs cfg input

/-- `find_iter` over the segmenter regex: take the match at the current
position, or advance one character when nothing matches there.  Every step
consumes at least one character (each alternative matches at least one), so
fuel equal to the input length is never exhausted. -/
def segmentAux (cfg : CharCfg) : Nat → List Char → List (List Char)
  | 0, _ => []
  | _ + 1, [] => []
  | fuel + 1, input =>
    match segNext cfg input with
    | some (m, rest) => m :: segmentAux cfg fuel rest
    | none => segmentAux cfg fuel (input.drop 1)

/-- `str::trim`. -/
def trimChars (cfg : CharCfg) (s : List Char) : List Char :=
  ((s.dropWhile cfg.isWs).reverse.dropWhile cfg.isWs).reverse

/-- The punctuation-splitting loop of `basic_tokenize`: maximal runs of
non-punctuation characters interleaved with single-character punctuation
tokens.  The second argument is the reversed `current` accumulator. -/
def splitPunctAux (cfg : CharCfg) : List Char → List Char → List (List Char)
  | [], current => if current.isEmpty then [] else [current.reverse]
  | c :: rest, current =>
    if cfg.isPunct c then
      (if current.isEmpty then [] else [current.reverse]) ++
        [c] :: splitPunctAux cfg rest []
    else splitPunctAux cfg rest (c :: current)

/-- `WordPieceTokenizer::basic_tokenize`. -/
def WordPieceTokenizer.basic_tokenize (tkz : WordPieceTokenizer)
    (text : List Char) : List Token :=
  let cleaned := WordPieceTokenizer.clean_text tkz text
  (segmentAux tkz.cfg cleaned.length cleaned).flatMap (fun mat =>
    let token_text := trimChars tkz.cfg mat
    match alLookup tkz.special_tokens token_text with
    | some id => [⟨token_text, id, true⟩]
    | none =>
      let t1 := if tkz.lowercase then tkz.cfg.lower token_text else token_text
      let t2 := WordPieceTokenizer.strip_accents_if_needed tkz t1
      (splitPunctAux tkz.cfg t2 []).map (fun t => (⟨t, -1, false⟩ : Token)))

/-- Word width of `usize` on the benchmarked targets. -/
def U64 : Nat := 2 ^ 64

/-- The scan loop of `wordpiece_tokenize`.  `start += if start == 0 { len }
else { len - 2 }` is modelled with release-mode wrapping `usize` arithmetic
(`% U64`).  The accumulator holds the emitted tokens in reverse.  `none`
models non-termination of the Rust loop: a run whose positions repeat never
reaches `start ≥ len` and advancing positions are distinct, so any
terminating run takes at most `len` iterations and fuel `len + 1` is enough
for it. -/
def wpLoop (tkz : WordPieceTokenizer) (chars : List Char) :
    Nat → Nat → List Token → Option (List Token)
  | 0, start, acc => if chars.length ≤ start then some acc.reverse else none
  | fuel + 1, start, acc =>
    if start < chars.length then
      let word_chars := if start = 0 then chars else '#' :: '#' :: chars.drop start
      match Trie.find_longest_prefix tkz.trie word_chars 0 with
      | some (len, tid) =>
        let text := (alLookup tkz.vocab_lookup tid).getD []
        let adv := if start = 0 then len else (len + (U64 - 2)) % U64
        wpLoop tkz chars fuel ((start + adv) % U64) (⟨text, tid, false⟩ :: acc)
      | none => some [⟨tkz.unk_token, tkz.unk_token_id, true⟩]
    else some acc.reverse

/-- `WordPieceTokenizer::wordpiece_tokenize`.  The `vocab_lookup` access in
the loop is `.unwrap()` in the source; the loop models it with a `.getD []`
default (claim C10 shows the default is never taken for a constructed
tokenizer).  `none` models a non-terminating call. -/
def WordPieceTokenizer.wordpiece_tokenize (tkz : WordPieceTokenizer)
    (token : Token) : Option (List Token) :=
  if token.is_special then some [token]
  else
    let chars := token.text
    if tkz.max_input_chars_per_word < chars.length then
      some [⟨tkz.unk_token, tkz.unk_token_id, true⟩]
    else wpLoop tkz chars (chars.length + 1) 0 []

/-- `Iterator::flat_map` over fallible per-token results: all-or-nothing
propagation of the non-termination marker. -/
def optMapM {α β : Type} (f : α → Option β) : List α → Option (List β)
  | [] => some []
  | a :: as =>
    match f a with
    | some b =>
      match optMapM f as with
      | some bs => some (b :: bs)
      | none => none
    | none => none

/-- `WordPieceTokenizer::tokenize`. -/
def WordPieceTokenizer.tokenize (tkz : WordPieceTokenizer) (text : List Char) :
    Option (List (List Char)) :=
  match optMapM (WordPieceTokenizer.wordpiece_tokenize tkz)
      (WordPieceTokenizer.basic_tokenize tkz text) with
  | some rs => some ((rs.flatten).map Token.text)
  | none => none

/-- `WordPieceTokenizer::encode`. -/
def WordPieceTokenizer.encode (tkz : WordPieceTokenizer) (text : List Char) :
    Option (List Int) :=
  match optMapM (WordPieceTokenizer.wordpiece_tokenize tkz)
      (WordPieceTokenizer.basic_tokenize tkz text) with
  | some rs => some ((rs.flatten).map Token.id)
  | none => none

/-- The ASCII code points of category `\p{P}` (Unicode punctuation). -/
def asciiPunctCodes : List Nat :=
  [0x21, 0x22, 0x23, 0x25, 0x26, 0x27, 0x28, 0x29, 0x2a, 0x2c, 0x2d, 0x2e,
   0x2f, 0x3a, 0x3b, 0x3f, 0x40, 0x5b, 0x5c, 0x5d, 0x5f, 0x7b, 0x7d]

/-- Instantiation of the character classes that agrees with the Unicode
tables on ASCII input: NFKC and NFD are the identity on ASCII, lowercasing
is ASCII lowercasing, and the regex classes are restricted to their ASCII
members. -/
def asciiCfg : CharCfg :=
  { nfkc := id
    nfd := id
    lower := fun s => s.map Char.toLower
    isWs := fun c => c.toNat = 0x20 || c.toNat = 0x09 || c.toNat = 0x0a ||
      c.toNat = 0x0b || c.toNat = 0x0c || c.toNat = 0x0d
    isPunct := fun c => asciiPunctCodes.contains c.toNat
    isLetter := fun c => c.isAlpha
    isNumber := fun c => c.isDigit
    isHan := fun _ => false }

/-- The worked-example vocabulary of the specification, in insertion order. -/
def exampleVocab : List (List Char × Int) :=
  [("un".toList, 10), ("##aff".toList, 11), ("##able".toList, 12),
   ("[UNK]".toList, 0)]

/-- The worked-example tokenizer: default `unk_token`, ceiling and flags. -/
def exTkz : WordPieceTokenizer :=
  WordPieceTokenizer.new asciiCfg exampleVocab ("[UNK]".toList) 200 true true

/-- The trie of claim C1's failing input: entries `ab ↦ 0`, `cd ↦ 1`. -/
def c1Trie : Trie :=
  Trie.build_failure_links
    (Trie.insert (Trie.insert Trie.new ("ab".toList) 0) ("cd".toList) 1)

/-- The trie of claim C2's failing input: entries `ab ↦ 0`, `b ↦ 1`. -/
def c2Trie : Trie :=
  Trie.build_failure_links
    (Trie.insert (Trie.insert Trie.new ("ab".toList) 0) ("b".toList) 1)

/-- Claim C6's vocabulary in its first insertion order. -/
def c6Vocab1 : List (List Char × Int) :=
  [("ab".toList, 1), ("cd".toList, 2), ("df".toList, 3)]

/-- Claim C6's vocabulary in its second insertion order. -/
def c6Vocab2 : List (List Char × Int) :=
  [("cd".toList, 2), ("ab".toList, 1), ("df".toList, 3)]

def c6Tkz1 : WordPieceTokenizer :=
  WordPieceTokenizer.new asciiCfg c6Vocab1 ("[UNK]".toList) 200 true true

def c6Tkz2 : WordPieceTokenizer :=
  WordPieceTokenizer.new asciiCfg c6Vocab2 ("[UNK]".toList) 200 true true

/-- Claim C7's failing input: a tokenizer constructed with a
`max_input_chars_per_word` ceiling of 0. -/
def c7Tkz : WordPieceTokenizer :=
  WordPieceTokenizer.new asciiCfg [("a".toList, 1), ("[UNK]".toList, 0)]
    ("[UNK]".toList) 0 true true

/-- Claim C8's failing input: the entry `a.b` mixes letters with one
punctuation character, so it is neither bracket/angle-delimited nor pure
punctuation. -/
def c8Tkz : WordPieceTokenizer :=
  WordPieceTokenizer.new asciiCfg [("a.b".toList, 5), ("[UNK]".toList, 0)]
    ("[UNK]".toList) 200 true true

/-- The two node fields the matcher reads besides the tree shape:
terminal flag and token id.  `build_failure_links` only writes `fail_link`
fields, so it preserves these at every path. -/
def obsW (n : Trie) : Bool × Int := (Trie.is_word n, Trie.token_id n)

/-- All terminal token ids stored anywhere in a trie value — in the children
tree and inside every stored failure-link copy, recursively — belong to `S`. -/
inductive IdsOk (S : List Int) : Trie → Prop where
  | intro {cs : List (Char × Trie)} {iw : Bool} {tid : Int} {m : Nat}
      {fl : Option Trie}
      (hw : iw = true → tid ∈ S)
      (hcs : ∀ c t, (c, t) ∈ cs → IdsOk S t)
      (hfl : ∀ f, fl = some f → IdsOk S f) :
      IdsOk S (.mk cs iw tid m fl)

/-- Claim C1 (code_bug evaluation): on the trie built from `{ab ↦ 0, cd ↦ 1}`,
`find_longest_prefix("abcd", 0)` returns `(4, 1)` — the id of `cd` with end
position 4 — although `abcd` is not a vocabulary entry (it is not even a path
of the trie) and the longest prefix of `abcd` that is a complete entry is
`ab` with id 0.  The claimed contract would require `Some((2, 0))`. -/
theorem claim_C1_code_eval :
    Trie.find_longest_prefix c1Trie ("abcd".toList) 0 = some (4, 1)
    ∧ (Trie.getNode c1Trie ("ab".toList)).map
        (fun n => (Trie.is_word n, Trie.token_id n)) = some (true, 0)
    ∧ (Trie.getNode c1Trie ("abcd".toList)).isSome = false := by decide

/-- Claim C2 (code_bug evaluation): on the trie built from `{ab ↦ 0, b ↦ 1}`,
the root's direct child `a` has its failure link set to a childless,
non-terminal node (the fresh `TrieNode::new()` of the source) although the
root has two children, so the link is not the root; and the failure link of
the node `ab` is a copy of the root (non-terminal, two children) although
the longest proper suffix of `ab` present in the trie is `b`, whose node is
terminal with no children. -/
theorem claim_C2_code_eval :
    ((Trie.getNode c2Trie ['a']).bind Trie.fail_link).map
        (fun f => ((Trie.children f).length, Trie.is_word f)) = some (0, false)
    ∧ (Trie.children c2Trie).length = 2
    ∧ ((Trie.getNode c2Trie ("ab".toList)).bind Trie.fail_link).map
        (fun f => (Trie.is_word f, (Trie.children f).length)) = some (false, 2)
    ∧ (Trie.getNode c2Trie ['b']).map
        (fun n => (Trie.is_word n, (Trie.children n).length)) = some (true, 0) := by
  decide

/-- Claim C4: with vocabulary `{un ↦ 10, ##aff ↦ 11, ##able ↦ 12, [UNK] ↦ 0}`,
unknown token `[UNK]` and default flags, `tokenize("unaffable")` returns
exactly `["un", "##aff", "##able"]` and `encode("unaffable")` returns
exactly `[10, 11, 12]`; the three greedy probes return lengths 2, 5 and 6,
so the scan advances by 2 at position 0 and by 5−2 and 6−2 at the later
positions. -/
theorem claim_C4 :
    WordPieceTokenizer.tokenize exTkz ("unaffable".toList) =
      some ["un".toList, "##aff".toList, "##able".toList]
    ∧ WordPieceTokenizer.encode exTkz ("unaffable".toList) = some [10, 11, 12]
    ∧ Trie.find_longest_prefix exTkz.trie ("unaffable".toList) 0 = some (2, 10)
    ∧ Trie.find_longest_prefix exTkz.trie ("##affable".toList) 0 = some (5, 11)
    ∧ Trie.find_longest_prefix exTkz.trie ("##able".toList) 0 = some (6, 12) := by
  decide

/-- Claim C5 (counterexample): `##aff` is a vocabulary entry with id 11 of
the worked-example tokenizer, but encoding the text `##aff` yields `[0]`
(one UNK id) — the basic tokenizer splits off and strips the `##` marker and
the remainder `aff` matches nothing — not `[11]` as the claim states. -/
theorem claim_C5_cex :
    WordPieceTokenizer.encode exTkz ("##aff".toList) = some [0]
    ∧ WordPieceTokenizer.encode exTkz ("##aff".toList) ≠ some [11] := by decide

/-- Claim C6 (code_bug evaluation): the same vocabulary
`{ab ↦ 1, cd ↦ 2, df ↦ 3}` inserted in two different orders gives
tokenizers whose `find_longest_prefix` on the same word `abcddf` returns
`(4, 2)` in one order and `(6, 3)` in the other, and whose `encode` returns
`[0]` and `[3]` respectively — matching behaviour depends on insertion
order. -/
theorem claim_C6_code_eval :
    Trie.find_longest_prefix c6Tkz1.trie ("abcddf".toList) 0 = some (4, 2)
    ∧ Trie.find_longest_prefix c6Tkz2.trie ("abcddf".toList) 0 = some (6, 3)
    ∧ WordPieceTokenizer.encode c6Tkz1 ("abcddf".toList) = some [0]
    ∧ WordPieceTokenizer.encode c6Tkz2 ("abcddf".toList) = some [3]
    ∧ WordPieceTokenizer.tokenize c6Tkz1 ("abcddf".toList) ≠
        WordPieceTokenizer.tokenize c6Tkz2 ("abcddf".toList) := by decide

/-- Claim C7 (counterexample): for a tokenizer constructed with ceiling
`max_input_chars_per_word = 0`, the input `a` produces one coarse token and
`tokenize` returns the one-element sequence `[UNK]`, which exceeds the
claimed bound of one coarse token times the ceiling, `1 * 0 = 0`. -/
theorem claim_C7_cex :
    WordPieceTokenizer.tokenize c7Tkz ("a".toList) = some ["[UNK]".toList]
    ∧ (WordPieceTokenizer.basic_tokenize c7Tkz ("a".toList)).length = 1
    ∧ ¬ (((WordPieceTokenizer.tokenize c7Tkz ("a".toList)).getD []).length ≤
        (WordPieceTokenizer.basic_tokenize c7Tkz ("a".toList)).length *
          c7Tkz.max_input_chars_per_word) := by decide

/-- Claim C8 (counterexample): the entry `a.b` is neither pure punctuation
nor bracket/angle-delimited, yet the constructor records it as a special
token and keeps it out of the trie (the trie does not even have a root child
`a`), because the code tests for at least one punctuation character rather
than for the two claimed shapes. -/
theorem claim_C8_cex :
    (("a.b".toList).all asciiCfg.isPunct) = false
    ∧ firstIs ("a.b".toList) '[' = false
    ∧ firstIs ("a.b".toList) '<' = false
    ∧ alLookup c8Tkz.special_tokens ("a.b".toList) = some 5
    ∧ (Trie.getNode c8Tkz.trie ("a.b".toList)).isSome = false
    ∧ (Trie.getNode c8Tkz.trie ['a']).isSome = false := by decide

theorem vsize_pos (t : Trie) : 0 < Trie.vsize t := by
  cases t with
  | mk cs iw tid m fl => simp [Trie.vsize]

theorem lookupChild_mem {cs : List (Char × Trie)} {c : Char} {t : Trie}
    (h : lookupChild cs c = some t) : (c, t) ∈ cs := by
  induction cs with
  | nil => simp [lookupChild] at h
  | cons hd tl ih =>
    obtain ⟨c', t'⟩ := hd
    simp only [lookupChild] at h
    by_cases hc : c' = c
    · subst hc
      simp at h
      subst h
      exact List.mem_cons_self _ _
    · simp [hc] at h
      exact List.mem_cons_of_mem _ (ih h)

theorem vsizeChildren_of_mem {cs : List (Char × Trie)} {c : Char} {t : Trie}
    (h : (c, t) ∈ cs) : Trie.vsize t ≤ vsizeChildren cs := by
  induction cs with
  | nil => cases h
  | cons hd tl ih =>
    rcases List.mem_cons.mp h with heq | hmem
    · subst heq
      simp [vsizeChildren]
    · obtain ⟨c', t'⟩ := hd
      have := ih hmem
      simp [vsizeChildren]
      omega

theorem vsize_lookup_lt {node : Trie} {c : Char} {t : Trie}
    (h : lookupChild (Trie.children node) c = some t) :
    Trie.vsize t < Trie.vsize node := by
  cases node with
  | mk cs iw tid m fl =>
    simp only [Trie.children] at h
    have h1 := vsizeChildren_of_mem (lookupChild_mem h)
    simp only [Trie.vsize]
    omega

theorem vsize_fail_lt {node : Trie} {f : Trie}
    (h : Trie.fail_link node = some f) : Trie.vsize f < Trie.vsize node := by
  cases node with
  | mk cs iw tid m fl =>
    simp only [Trie.fail_link] at h
    subst h
    simp only [Trie.vsize, vsizeOpt]
    omega

theorem probeAux_nil {fuel : Nat} {node : Trie} {pos : Nat}
    {last : Option (Nat × Int)} : probeAux fuel node [] pos last = last := by
  cases fuel <;> simp [probeAux]

theorem probeAux_zero {node : Trie} {rem : List Char} {pos : Nat}
    {last : Option (Nat × Int)} : probeAux 0 node rem pos last = last := by
  cases rem <;> simp [probeAux]

-- Scanning from the empty node returns the recorded match unchanged: it has
-- no children and no failure link.
theorem probeAux_new {fuel : Nat} {rem : List Char} {pos : Nat}
    {last : Option (Nat × Int)} : probeAux fuel Trie.new rem pos last = last := by
  cases fuel with
  | zero => exact probeAux_zero
  | succ n =>
    cases rem with
    | nil => exact probeAux_nil
    | cons c rest => simp [probeAux, Trie.new, Trie.children, lookupChild, Trie.fail_link]

-- Any match returned by the scan ends strictly to the right of the scan
-- position (unless it was already recorded before the call).
theorem probeAux_some_ge :
    ∀ {fuel : Nat} {node : Trie} {rem : List Char} {pos : Nat}
      {last : Option (Nat × Int)} {e : Nat} {i : Int},
      probeAux fuel node rem pos last = some (e, i) →
      last = some (e, i) ∨ pos < e := by
  intro fuel
  induction fuel with
  | zero =>
    intro node rem pos last e i h
    rw [probeAux_zero] at h
    exact Or.inl h
  | succ n ih =>
    intro node rem pos last e i h
    cases rem with
    | nil =>
      rw [probeAux_nil] at h
      exact Or.inl h
    | cons c rest =>
      rcases hl : lookupChild (Trie.children node) c with _ | next
      · rcases hf : Trie.fail_link node with _ | fail
        · simp only [probeAux, hl, hf] at h
          exact Or.inl h
        · simp only [probeAux, hl, hf] at h
          exact ih h
      · simp only [probeAux, hl] at h
        rcases ih h with heq | hlt
        · by_cases hw : Trie.is_word next
          · simp only [hw, if_pos] at heq
            injection heq with heq'
            injection heq' with he hi
            omega
          · simp only [hw] at heq
            simp at heq
            exact Or.inl heq
        · right
          omega

-- Any match returned by the scan ends within the scanned word.
theorem probeAux_some_le :
    ∀ {fuel : Nat} {node : Trie} {rem : List Char} {pos : Nat}
      {last : Option (Nat × Int)} {e : Nat} {i : Int},
      (∀ e' i', last = some (e', i') → e' ≤ pos + rem.length) →
      probeAux fuel node rem pos last = some (e, i) → e ≤ pos + rem.length := by
  intro fuel
  induction fuel with
  | zero =>
    intro node rem pos last e i hlast h
    rw [probeAux_zero] at h
    exact hlast e i h
  | succ n ih =>
    intro node rem pos last e i hlast h
    cases rem with
    | nil =>
      rw [probeAux_nil] at h
      exact hlast e i h
    | cons c rest =>
      rcases hl : lookupChild (Trie.children node) c with _ | next
      · rcases hf : Trie.fail_link node with _ | fail
        · simp only [probeAux, hl, hf] at h
          exact hlast e i h
        · simp only [probeAux, hl, hf] at h
          exact ih hlast h
      · simp only [probeAux, hl] at h
        have hlast' : ∀ e' i',
            (if Trie.is_word next then some (pos + 1, Trie.token_id next) else last) =
              some (e', i') → e' ≤ (pos + 1) + rest.length := by
          intro e' i' he'
          by_cases hw : Trie.is_word next
          · rw [if_pos hw] at he'
            injection he' with h1
            injection h1 with h2 h3
            omega
          · rw [if_neg hw] at he'
            have := hlast e' i' he'
            simp only [List.length_cons] at this
            omega
        have hb := ih hlast' h
        simp only [List.length_cons] at hb ⊢
        omega

-- The two scan bounds restated for `find_longest_prefix`.
theorem flp_lt {t : Trie} {word : List Char} {start e : Nat} {i : Int}
    (h : Trie.find_longest_prefix t word start = some (e, i)) : start < e := by
  rcases probeAux_some_ge h with h' | h'
  · cases h'
  · exact h'

theorem flp_le {t : Trie} {word : List Char} {start e : Nat} {i : Int}
    (h : Trie.find_longest_prefix t word start = some (e, i)) :
    e ≤ start + (word.drop start).length := by
  exact probeAux_some_le (by intro e' i' h'; cases h') h

theorem lookupChild_setChild_self {cs : List (Char × Trie)} {c : Char} {t : Trie} :
    lookupChild (setChild cs c t) c = some t := by
  induction cs with
  | nil => simp [setChild, lookupChild]
  | cons hd tl ih =>
    obtain ⟨c', t'⟩ := hd
    by_cases hc : c' = c
    · simp [setChild, hc, lookupChild]
    · simp [setChild, hc, lookupChild, ih]

theorem lookupChild_setChild_ne {cs : List (Char × Trie)} {c c' : Char} {t : Trie}
    (hne : c' ≠ c) : lookupChild (setChild cs c t) c' = lookupChild cs c' := by
  have hcc : ¬ c = c' := fun h => hne h.symm
  induction cs with
  | nil => simp [setChild, lookupChild, hcc]
  | cons hd tl ih =>
    obtain ⟨c'', t''⟩ := hd
    by_cases hc : c'' = c
    · subst hc
      simp [setChild, lookupChild, hcc]
    · simp only [setChild, if_neg hc, lookupChild]
      by_cases hc2 : c'' = c'
      · simp [hc2, lookupChild]
      · simp [hc2, lookupChild, ih]

theorem mem_setChild {cs : List (Char × Trie)} {c c' : Char} {t t' : Trie}
    (h : (c', t') ∈ setChild cs c t) : (c', t') ∈ cs ∨ t' = t := by
  induction cs with
  | nil =>
    simp [setChild] at h
    exact Or.inr h.2
  | cons hd tl ih =>
    obtain ⟨c'', t''⟩ := hd
    by_cases hc : c'' = c
    · simp only [setChild, hc, if_pos rfl] at h
      rcases List.mem_cons.mp h with heq | hmem
      · injection heq with h1 h2
        exact Or.inr h2
      · exact Or.inl (List.mem_cons_of_mem _ hmem)
    · simp only [setChild, if_neg hc] at h
      rcases List.mem_cons.mp h with heq | hmem
      · exact Or.inl (heq ▸ List.mem_cons_self _ _)
      · rcases ih hmem with h1 | h2
        · exact Or.inl (List.mem_cons_of_mem _ h1)
        · exact Or.inr h2

-- The empty trie has no terminal node anywhere.
theorem new_no_word {p : List Char} {n : Trie}
    (h : Trie.getNode Trie.new p = some n) : Trie.is_word n = false := by
  cases p with
  | nil =>
    simp [Trie.getNode] at h
    subst h
    rfl
  | cons c rest => simp [Trie.getNode, Trie.new, Trie.children, lookupChild] at h

-- `insert` marks the node at the inserted path terminal with the given id.
theorem getNode_insertGo_self :
    ∀ (w : List Char) (wlen : Nat) (tid : Int) (t : Trie),
      ∃ n, Trie.getNode (Trie.insertGo w wlen tid t) w = some n ∧
        Trie.is_word n = true ∧ Trie.token_id n = tid := by
  intro w
  induction w with
  | nil =>
    intro wlen tid t
    cases t with
    | mk cs iw told m fl =>
      refine ⟨_, rfl, ?_, ?_⟩ <;>
        simp [Trie.insertGo, Trie.is_word, Trie.token_id]
  | cons c rest ih =>
    intro wlen tid t
    cases t with
    | mk cs iw told m fl =>
      obtain ⟨n, hn, hw, hi⟩ := ih wlen tid
        (match lookupChild cs c with
          | some t' => t'
          | none => Trie.new)
      refine ⟨n, ?_, hw, hi⟩
      simp only [Trie.insertGo, Trie.getNode, Trie.children, lookupChild_setChild_self]
      exact hn

-- `insert` leaves the terminal flag and id of every other existing node
-- unchanged, and overwrites them at the inserted path.
theorem getNode_insertGo_preserve :
    ∀ (w : List Char) (wlen : Nat) (tid : Int) {t : Trie} {p : List Char} {n : Trie},
      Trie.getNode t p = some n →
      ∃ n', Trie.getNode (Trie.insertGo w wlen tid t) p = some n' ∧
        Trie.is_word n' = (if p = w then true else Trie.is_word n) ∧
        Trie.token_id n' = (if p = w then tid else Trie.token_id n) := by
  intro w
  induction w with
  | nil =>
    intro wlen tid t p n hp
    cases t with
    | mk cs iw told m fl =>
      cases p with
      | nil =>
        simp only [Trie.getNode] at hp
        injection hp with hp
        subst hp
        refine ⟨_, rfl, ?_, ?_⟩ <;>
          simp [Trie.insertGo, Trie.is_word, Trie.token_id]
      | cons c ps =>
        refine ⟨n, ?_, by simp, by simp⟩
        simpa only [Trie.insertGo, Trie.getNode, Trie.children] using hp
  | cons c rest ih =>
    intro wlen tid t p n hp
    cases t with
    | mk cs iw told m fl =>
      cases p with
      | nil =>
        simp only [Trie.getNode] at hp
        injection hp with hp
        subst hp
        refine ⟨_, rfl, ?_, ?_⟩ <;>
          simp [Trie.insertGo, Trie.is_word, Trie.token_id]
      | cons c' ps =>
        simp only [Trie.getNode, Trie.children] at hp
        rcases hl : lookupChild cs c' with _ | child
        · rw [hl] at hp
          cases hp
        · rw [hl] at hp
          by_cases hc : c' = c
          · subst hc
            obtain ⟨n', hn', hw', hi'⟩ := ih wlen tid hp
            refine ⟨n', ?_, ?_, ?_⟩
            · simp only [Trie.insertGo, Trie.getNode, Trie.children,
                lookupChild_setChild_self, hl]
              exact hn'
            · simpa [List.cons.injEq] using hw'
            · simpa [List.cons.injEq] using hi'
          · refine ⟨n, ?_, by simp [List.cons.injEq, hc], by simp [List.cons.injEq, hc]⟩
            simp only [Trie.insertGo, Trie.getNode, Trie.children,
              lookupChild_setChild_ne hc, hl]
            exact hp

-- Conversely, a terminal node of the trie after an insertion was either just
-- inserted or already terminal before.
theorem getNode_insertGo_word_src :
    ∀ {w : List Char} {wlen : Nat} {tid : Int} {t : Trie} {p : List Char} {n' : Trie},
      Trie.getNode (Trie.insertGo w wlen tid t) p = some n' →
      Trie.is_word n' = true →
      p = w ∨ ∃ n, Trie.getNode t p = some n ∧ Trie.is_word n = true := by
  intro w
  induction w with
  | nil =>
    intro wlen tid t p n' hp hw
    cases t with
    | mk cs iw told m fl =>
      cases p with
      | nil => exact Or.inl rfl
      | cons c ps =>
        right
        refine ⟨n', ?_, hw⟩
        simpa only [Trie.insertGo, Trie.getNode, Trie.children] using hp
  | cons c rest ih =>
    intro wlen tid t p n' hp hw
    cases t with
    | mk cs iw told m fl =>
      cases p with
      | nil =>
        simp only [Trie.insertGo, Trie.getNode] at hp
        injection hp with hp
        subst hp
        right
        exact ⟨_, rfl, hw⟩
      | cons c' ps =>
        simp only [Trie.insertGo, Trie.getNode, Trie.children] at hp
        by_cases hc : c' = c
        · subst hc
          rw [lookupChild_setChild_self] at hp
          rcases ih hp hw with heq | ⟨n, hn, hwn⟩
          · exact Or.inl (by rw [heq])
          · rcases hl : lookupChild cs c' with _ | child
            · rw [hl] at hn
              have := new_no_word hn
              rw [this] at hwn
              cases hwn
            · rw [hl] at hn
              right
              refine ⟨n, ?_, hwn⟩
              simp only [Trie.getNode, Trie.children, hl]
              exact hn
        · rw [lookupChild_setChild_ne hc] at hp
          rcases hl : lookupChild cs c' with _ | child
          · rw [hl] at hp
            cases hp
          · rw [hl] at hp
            right
            refine ⟨n', ?_, hw⟩
            simp only [Trie.getNode, Trie.children, hl]
            exact hp

-- Full descent along an existing terminal path: the scan never takes a
-- failure transition and returns the path's end position and id.
theorem probeAux_path :
    ∀ {rem : List Char} (fuel : Nat) (node : Trie) (pos : Nat)
      (last : Option (Nat × Int)) {n : Trie},
      Trie.vsize node ≤ fuel → Trie.getNode node rem = some n →
      Trie.is_word n = true → rem ≠ [] →
      probeAux fuel node rem pos last = some (pos + rem.length, Trie.token_id n) := by
  intro rem
  induction rem with
  | nil => intro _ _ _ _ _ _ _ _ habs; cases habs rfl
  | cons c rest ih =>
    intro fuel node pos last n hfuel hget hword _
    cases fuel with
    | zero => have := vsize_pos node; omega
    | succ f =>
      simp only [Trie.getNode] at hget
      rcases hl : lookupChild (Trie.children node) c with _ | child
      · rw [hl] at hget
        cases hget
      · rw [hl] at hget
        have hchild : Trie.vsize child ≤ f := by
          have := vsize_lookup_lt hl
          omega
        cases rest with
        | nil =>
          simp only [Trie.getNode] at hget
          injection hget with hget
          subst hget
          simp only [probeAux, hl, hword, if_pos, probeAux_nil, List.length_cons,
            List.length_nil]
        | cons d ds =>
          have hrec := ih f child (pos + 1)
            (if Trie.is_word child then some (pos + 1, Trie.token_id child)
              else last) hchild hget hword (by simp)
          simp only [probeAux, hl]
          rw [hrec]
          simp only [List.length_cons]
          congr 2
          omega

theorem insertGo_fail_link {w : List Char} {wlen : Nat} {tid : Int} {t : Trie} :
    Trie.fail_link (Trie.insertGo w wlen tid t) = Trie.fail_link t := by
  cases w <;> cases t <;> simp [Trie.insertGo, Trie.fail_link]

-- A terminal node of the constructor's trie comes from a non-special
-- vocabulary entry.
theorem vocabTrie_fold_word_src :
    ∀ (V : List (List Char × Int)) (cfg : CharCfg) (t0 : Trie) {p : List Char} {n' : Trie},
      Trie.getNode (V.foldl (fun t kv =>
        if isSpecialKey cfg kv.1 then t else Trie.insert t kv.1 kv.2) t0) p = some n' →
      Trie.is_word n' = true →
      (∃ i, (p, i) ∈ V ∧ isSpecialKey cfg p = false)
      ∨ ∃ n, Trie.getNode t0 p = some n ∧ Trie.is_word n = true := by
  intro V
  induction V with
  | nil =>
    intro cfg t0 p n' h hw
    exact Or.inr ⟨n', h, hw⟩
  | cons kv rest ih =>
    intro cfg t0 p n' h hw
    simp only [List.foldl_cons] at h
    rcases ih cfg _ h hw with ⟨i, hmem, hsp⟩ | ⟨n, hn, hwn⟩
    · exact Or.inl ⟨i, List.mem_cons_of_mem _ hmem, hsp⟩
    · by_cases hk : isSpecialKey cfg kv.1
      · rw [if_pos hk] at hn
        exact Or.inr ⟨n, hn, hwn⟩
      · rw [if_neg hk] at hn
        rw [Trie.insert] at hn
        rcases getNode_insertGo_word_src hn hwn with heq | ⟨n0, hn0, hw0⟩
        · subst heq
          refine Or.inl ⟨kv.2, ?_, by simpa using hk⟩
          simp
        · exact Or.inr ⟨n0, hn0, hw0⟩

theorem vocabTrie_word_src {cfg : CharCfg} {V : List (List Char × Int)}
    {p : List Char} {n' : Trie}
    (h : Trie.getNode (vocabTrie cfg V) p = some n')
    (hw : Trie.is_word n' = true) :
    ∃ i, (p, i) ∈ V ∧ isSpecialKey cfg p = false := by
  rw [vocabTrie] at h
  rcases vocabTrie_fold_word_src V cfg Trie.new h hw with h1 | ⟨n, hn, hwn⟩
  · exact h1
  · rw [new_no_word hn] at hwn
    cases hwn

-- A non-special entry whose key carries a unique id ends up terminal in the
-- constructor's trie with exactly that id.
theorem vocabTrie_fold_word_dst :
    ∀ (V : List (List Char × Int)) (cfg : CharCfg) (t0 : Trie) {p : List Char} {i : Int},
      ((p, i) ∈ V ∨ ∃ n0, Trie.getNode t0 p = some n0 ∧ Trie.is_word n0 = true ∧
        Trie.token_id n0 = i) →
      (∀ j, (p, j) ∈ V → j = i) →
      isSpecialKey cfg p = false →
      ∃ n, Trie.getNode (V.foldl (fun t kv =>
          if isSpecialKey cfg kv.1 then t else Trie.insert t kv.1 kv.2) t0) p = some n ∧
        Trie.is_word n = true ∧ Trie.token_id n = i := by
  intro V
  induction V with
  | nil =>
    intro cfg t0 p i hsrc _ _
    rcases hsrc with hmem | ⟨n0, hn0, hw0, hi0⟩
    · cases hmem
    · exact ⟨n0, hn0, hw0, hi0⟩
  | cons kv rest ih =>
    intro cfg t0 p i hsrc huniq hsp
    simp only [List.foldl_cons]
    have huniq' : ∀ j, (p, j) ∈ rest → j = i :=
      fun j hj => huniq j (List.mem_cons_of_mem _ hj)
    rcases hsrc with hmem | ⟨n0, hn0, hw0, hi0⟩
    · rcases List.mem_cons.mp hmem with heq | hmem'
      · have hk1 : kv.1 = p := by rw [← heq]
        have hk2 : kv.2 = i := by rw [← heq]
        rw [hk1, if_neg (by rw [hsp]; exact Bool.false_ne_true)]
        obtain ⟨n, hn, hw, hi⟩ := getNode_insertGo_self p p.length kv.2 t0
        exact ih cfg _ (Or.inr ⟨n, hn, hw, by rw [hi, hk2]⟩) huniq' hsp
      · exact ih cfg _ (Or.inl hmem') huniq' hsp
    · by_cases hk : isSpecialKey cfg kv.1
      · rw [if_pos hk]
        exact ih cfg _ (Or.inr ⟨n0, hn0, hw0, hi0⟩) huniq' hsp
      · rw [if_neg hk]
        rw [show Trie.insert t0 kv.1 kv.2 = Trie.insertGo kv.1 kv.1.length kv.2 t0
          from rfl]
        obtain ⟨n', hn', hw', hi'⟩ :=
          getNode_insertGo_preserve kv.1 kv.1.length kv.2 hn0
        refine ih cfg _ (Or.inr ⟨n', hn', ?_, ?_⟩) huniq' hsp
        · rw [hw']
          by_cases hpw : p = kv.1
          · simp [hpw]
          · simp [hpw, hw0]
        · rw [hi']
          by_cases hpw : p = kv.1
          · rw [if_pos hpw]
            apply huniq
            subst hpw
            simp
          · rw [if_neg hpw]
            exact hi0

theorem vocabTrie_word_dst {cfg : CharCfg} {V : List (List Char × Int)}
    {p : List Char} {i : Int} (hmem : (p, i) ∈ V)
    (huniq : ∀ j, (p, j) ∈ V → j = i) (hsp : isSpecialKey cfg p = false) :
    ∃ n, Trie.getNode (vocabTrie cfg V) p = some n ∧
      Trie.is_word n = true ∧ Trie.token_id n = i := by
  rw [vocabTrie]
  exact vocabTrie_fold_word_dst V cfg Trie.new (Or.inl hmem) huniq hsp

-- Every non-special entry ends up terminal in the constructor's trie,
-- duplicate ids or not.
theorem vocabTrie_fold_word_any :
    ∀ (V : List (List Char × Int)) (cfg : CharCfg) (t0 : Trie) {p : List Char},
      isSpecialKey cfg p = false →
      ((∃ i, (p, i) ∈ V) ∨
        ∃ n0, Trie.getNode t0 p = some n0 ∧ Trie.is_word n0 = true) →
      ∃ n, Trie.getNode (V.foldl (fun t kv =>
          if isSpecialKey cfg kv.1 then t else Trie.insert t kv.1 kv.2) t0) p = some n ∧
        Trie.is_word n = true := by
  intro V
  induction V with
  | nil =>
    intro cfg t0 p _ hsrc
    rcases hsrc with ⟨i, hmem⟩ | ⟨n0, hn0, hw0⟩
    · cases hmem
    · exact ⟨n0, hn0, hw0⟩
  | cons kv rest ih =>
    intro cfg t0 p hsp hsrc
    simp only [List.foldl_cons]
    rcases hsrc with ⟨i, hmem⟩ | ⟨n0, hn0, hw0⟩
    · rcases List.mem_cons.mp hmem with heq | hmem'
      · have hk1 : kv.1 = p := by rw [← heq]
        rw [hk1, if_neg (by rw [hsp]; exact Bool.false_ne_true)]
        obtain ⟨n, hn, hw, _⟩ := getNode_insertGo_self p p.length kv.2 t0
        exact ih cfg _ hsp (Or.inr ⟨n, hn, hw⟩)
      · exact ih cfg _ hsp (Or.inl ⟨i, hmem'⟩)
    · by_cases hk : isSpecialKey cfg kv.1
      · rw [if_pos hk]
        exact ih cfg _ hsp (Or.inr ⟨n0, hn0, hw0⟩)
      · rw [if_neg hk]
        rw [show Trie.insert t0 kv.1 kv.2 = Trie.insertGo kv.1 kv.1.length kv.2 t0
          from rfl]
        obtain ⟨n', hn', hw', _⟩ :=
          getNode_insertGo_preserve kv.1 kv.1.length kv.2 hn0
        refine ih cfg _ hsp (Or.inr ⟨n', hn', ?_⟩)
        rw [hw']
        by_cases hpw : p = kv.1
        · simp [hpw]
        · simp [hpw, hw0]

theorem vocabTrie_word_any {cfg : CharCfg} {V : List (List Char × Int)}
    {p : List Char} {i : Int} (hmem : (p, i) ∈ V)
    (hsp : isSpecialKey cfg p = false) :
    ∃ n, Trie.getNode (vocabTrie cfg V) p = some n ∧ Trie.is_word n = true := by
  rw [vocabTrie]
  exact vocabTrie_fold_word_any V cfg Trie.new hsp (Or.inl ⟨i, hmem⟩)

theorem alLookup_alInsert_self {α β : Type} [DecidableEq α] {l : List (α × β)}
    {k : α} {v : β} : alLookup (alInsert l k v) k = some v := by
  induction l with
  | nil => simp [alInsert, alLookup]
  | cons hd tl ih =>
    obtain ⟨k', v'⟩ := hd
    by_cases hk : k' = k
    · simp [alInsert, hk, alLookup]
    · simp [alInsert, hk, alLookup, ih]

theorem alLookup_alInsert_isSome {α β : Type} [DecidableEq α] {l : List (α × β)}
    {k k' : α} {v : β} (h : (alLookup l k').isSome = true) :
    (alLookup (alInsert l k v) k').isSome = true := by
  induction l with
  | nil => simp [alLookup] at h
  | cons hd tl ih =>
    obtain ⟨k'', v''⟩ := hd
    by_cases hk : k'' = k
    · subst hk
      by_cases hk2 : k'' = k'
      · simp [alInsert, alLookup, hk2]
      · simp only [alLookup, if_neg hk2] at h
        simp [alInsert, alLookup, hk2, h]
    · simp only [alLookup] at h
      by_cases hk2 : k'' = k'
      · subst hk2
        simp [alInsert, hk, alLookup]
      · simp only [if_neg hk2] at h
        simp [alInsert, hk, alLookup, hk2, ih h]

-- Every special entry is present in the special-token map.
theorem vocabSpecials_fold_mem :
    ∀ (V : List (List Char × Int)) (cfg : CharCfg) (sp0 : List (List Char × Int))
      {k : List Char},
      ((∃ v, (k, v) ∈ V ∧ isSpecialKey cfg k = true) ∨ (alLookup sp0 k).isSome = true) →
      (alLookup (V.foldl (fun sp kv =>
        if isSpecialKey cfg kv.1 then alInsert sp kv.1 kv.2 else sp) sp0) k).isSome
        = true := by
  intro V
  induction V with
  | nil =>
    intro cfg sp0 k h
    rcases h with ⟨v, hmem, _⟩ | h
    · cases hmem
    · exact h
  | cons kv rest ih =>
    intro cfg sp0 k h
    simp only [List.foldl_cons]
    rcases h with ⟨v, hmem, hsp⟩ | h
    · rcases List.mem_cons.mp hmem with heq | hmem'
      · have hk1 : kv.1 = k := by rw [← heq]
        refine ih cfg _ (Or.inr ?_)
        rw [if_pos (by rw [hk1]; exact hsp), hk1]
        simp [alLookup_alInsert_self]
      · exact ih cfg _ (Or.inl ⟨v, hmem', hsp⟩)
    · refine ih cfg _ (Or.inr ?_)
      by_cases hk : isSpecialKey cfg kv.1
      · rw [if_pos hk]
        exact alLookup_alInsert_isSome h
      · rw [if_neg hk]
        exact h

theorem vocabSpecials_mem {cfg : CharCfg} {V : List (List Char × Int)}
    {k : List Char} {v : Int} (hmem : (k, v) ∈ V)
    (hsp : isSpecialKey cfg k = true) :
    (alLookup (vocabSpecials cfg V) k).isSome = true := by
  rw [vocabSpecials]
  exact vocabSpecials_fold_mem V cfg [] (Or.inl ⟨v, hmem, hsp⟩)

-- Every id of the vocabulary is present in the id-to-string map.
theorem vocabLookupOf_fold_mem :
    ∀ (V : List (List Char × Int)) (vl0 : List (Int × List Char)) {i : Int},
      ((∃ k, (k, i) ∈ V) ∨ (alLookup vl0 i).isSome = true) →
      (alLookup (V.foldl (fun vl kv => alInsert vl kv.2 kv.1) vl0) i).isSome = true := by
  intro V
  induction V with
  | nil =>
    intro vl0 i h
    rcases h with ⟨k, hmem⟩ | h
    · cases hmem
    · exact h
  | cons kv rest ih =>
    intro vl0 i h
    simp only [List.foldl_cons]
    rcases h with ⟨k, hmem⟩ | h
    · rcases List.mem_cons.mp hmem with heq | hmem'
      · have hk2 : kv.2 = i := by rw [← heq]
        refine ih _ (Or.inr ?_)
        rw [hk2]
        simp [alLookup_alInsert_self]
      · exact ih _ (Or.inl ⟨k, hmem'⟩)
    · exact ih _ (Or.inr (alLookup_alInsert_isSome h))

theorem vocabLookupOf_mem {V : List (List Char × Int)} {k : List Char} {i : Int}
    (hmem : (k, i) ∈ V) : (alLookup (vocabLookupOf V) i).isSome = true := by
  rw [vocabLookupOf]
  exact vocabLookupOf_fold_mem V [] (Or.inl ⟨k, hmem⟩)

-- `setFail` changes no terminal flag and no token id at any path.
theorem getNode_setFail_obs :
    ∀ {q : List Char} {v : Option Trie} {t : Trie} {p : List Char},
      (Trie.getNode (Trie.setFail t q v) p).map obsW = (Trie.getNode t p).map obsW := by
  intro q
  induction q with
  | nil =>
    intro v t p
    obtain ⟨cs, iw, tid, m, fl⟩ := t
    cases p with
    | nil => simp [Trie.setFail, Trie.getNode, obsW, Trie.is_word, Trie.token_id]
    | cons c ps => simp [Trie.setFail, Trie.getNode, Trie.children]
  | cons c' qs ih =>
    intro v t p
    obtain ⟨cs, iw, tid, m, fl⟩ := t
    rcases hl : lookupChild cs c' with _ | child
    · simp [Trie.setFail, hl]
    · cases p with
      | nil =>
        simp [Trie.setFail, hl, Trie.getNode, obsW, Trie.is_word, Trie.token_id]
      | cons c ps =>
        by_cases hc : c = c'
        · subst hc
          simp only [Trie.setFail, hl, Trie.getNode, Trie.children,
            lookupChild_setChild_self]
          exact ih
        · have hc' : ¬ c' = c := fun h => hc h.symm
          simp only [Trie.setFail, hl, Trie.getNode, Trie.children,
            lookupChild_setChild_ne hc]

theorem getNode_stepChild_obs {root : Trie} {p : List Char} {pf : Option Trie}
    {c : Char} {p' : List Char} :
    (Trie.getNode (stepChild root p pf c) p').map obsW =
    (Trie.getNode root p').map obsW := by
  exact getNode_setFail_obs

theorem getNode_stepChildren_obs :
    ∀ {cs : List Char} {root : Trie} {p : List Char} {pf : Option Trie}
      {p' : List Char},
      (Trie.getNode (stepChildren p pf root cs) p').map obsW =
      (Trie.getNode root p').map obsW := by
  intro cs
  induction cs with
  | nil => intro root p pf p'; rfl
  | cons c rest ih =>
    intro root p pf p'
    rw [stepChildren]
    exact ih.trans getNode_stepChild_obs

theorem getNode_bfsLoop_obs :
    ∀ {fuel : Nat} {q : List (List Char)} {t : Trie} {p : List Char},
      (Trie.getNode (bfsLoop fuel t q) p).map obsW = (Trie.getNode t p).map obsW := by
  intro fuel
  induction fuel with
  | zero => intro q t p; rfl
  | succ n ih =>
    intro q t p
    cases q with
    | nil => rfl
    | cons p0 rest =>
      rcases hg : Trie.getNode t p0 with _ | node
      · simp only [bfsLoop, hg]
        exact ih
      · simp only [bfsLoop, hg]
        exact ih.trans getNode_stepChildren_obs

-- The initialization pass changes only `fail_link` fields of depth-1 nodes.
theorem initChildFails_lookup :
    ∀ (cs : List (Char × Trie)) (c : Char),
      (lookupChild (initChildFails cs) c = none ∧ lookupChild cs c = none) ∨
      ∃ a b d e fl', lookupChild cs c = some (.mk a b d e fl') ∧
        lookupChild (initChildFails cs) c = some (.mk a b d e (some Trie.new)) := by
  intro cs
  induction cs with
  | nil => intro c; exact Or.inl ⟨rfl, rfl⟩
  | cons hd tl ih =>
    intro c
    obtain ⟨c', t'⟩ := hd
    obtain ⟨a, b, d, e, fl'⟩ := t'
    by_cases hc : c' = c
    · subst hc
      right
      exact ⟨a, b, d, e, fl', by simp [lookupChild], by simp [initChildFails, lookupChild]⟩
    · rcases ih c with ⟨h1, h2⟩ | ⟨a2, b2, d2, e2, fl2, h1, h2⟩
      · left
        constructor
        · simpa [initChildFails, lookupChild, hc] using h1
        · simpa [lookupChild, hc] using h2
      · right
        exact ⟨a2, b2, d2, e2, fl2, by simpa [lookupChild, hc] using h1,
          by simpa [initChildFails, lookupChild, hc] using h2⟩

-- `getNode` along a nonempty path never reads the root's non-children fields.
theorem getNode_cons_children {a : List (Char × Trie)} {b b' : Bool} {d d' : Int}
    {e e' : Nat} {fl fl' : Option Trie} {c : Char} {ps : List Char} :
    Trie.getNode (.mk a b d e fl) (c :: ps) = Trie.getNode (.mk a b' d' e' fl') (c :: ps) := by
  simp [Trie.getNode, Trie.children]

theorem getNode_initChildFails_obs :
    ∀ {cs : List (Char × Trie)} {iw : Bool} {tid : Int} {m : Nat} {fl : Option Trie}
      {p : List Char},
      (Trie.getNode (Trie.mk (initChildFails cs) iw tid m fl) p).map obsW =
      (Trie.getNode (Trie.mk cs iw tid m fl) p).map obsW := by
  intro cs iw tid m fl p
  cases p with
  | nil => rfl
  | cons c ps =>
    rcases initChildFails_lookup cs c with ⟨h1, h2⟩ |
      ⟨a, b, d, e, fl', h1, h2⟩
    · simp [Trie.getNode, Trie.children, h1, h2]
    · simp only [Trie.getNode, Trie.children, h1, h2]
      cases ps with
      | nil => simp [Trie.getNode, obsW, Trie.is_word, Trie.token_id]
      | cons d2 ds => rw [getNode_cons_children]

theorem getNode_build_obs {t : Trie} {p : List Char} :
    (Trie.getNode (Trie.build_failure_links t) p).map obsW =
    (Trie.getNode t p).map obsW := by
  obtain ⟨cs, iw, tid, m, fl⟩ := t
  rw [Trie.build_failure_links]
  exact getNode_bfsLoop_obs.trans getNode_initChildFails_obs

-- `setFail` along a nonempty path leaves the root's `fail_link` unchanged.
theorem setFail_fail_link_ne_nil {t : Trie} {q : List Char} {v : Option Trie}
    (h : q ≠ []) : Trie.fail_link (Trie.setFail t q v) = Trie.fail_link t := by
  obtain ⟨cs, iw, tid, m, fl⟩ := t
  cases q with
  | nil => cases h rfl
  | cons c qs =>
    rcases hl : lookupChild cs c with _ | child <;>
      simp [Trie.setFail, hl, Trie.fail_link]

theorem stepChild_fail_link {root : Trie} {p : List Char} {pf : Option Trie}
    {c : Char} : Trie.fail_link (stepChild root p pf c) = Trie.fail_link root := by
  exact setFail_fail_link_ne_nil (by simp)

theorem stepChildren_fail_link :
    ∀ {cs : List Char} {root : Trie} {p : List Char} {pf : Option Trie},
      Trie.fail_link (stepChildren p pf root cs) = Trie.fail_link root := by
  intro cs
  induction cs with
  | nil => intro root p pf; rfl
  | cons c rest ih =>
    intro root p pf
    rw [stepChildren]
    exact ih.trans stepChild_fail_link

theorem bfsLoop_fail_link :
    ∀ {fuel : Nat} {q : List (List Char)} {t : Trie},
      Trie.fail_link (bfsLoop fuel t q) = Trie.fail_link t := by
  intro fuel
  induction fuel with
  | zero => intro q t; rfl
  | succ n ih =>
    intro q t
    cases q with
    | nil => rfl
    | cons p0 rest =>
      rcases hg : Trie.getNode t p0 with _ | node
      · simp only [bfsLoop, hg]
        exact ih
      · simp only [bfsLoop, hg]
        exact ih.trans stepChildren_fail_link

theorem build_fail_link {t : Trie} :
    Trie.fail_link (Trie.build_failure_links t) = Trie.fail_link t := by
  obtain ⟨cs, iw, tid, m, fl⟩ := t
  rw [Trie.build_failure_links]
  exact bfsLoop_fail_link

-- A `setFail` at depth two or more leaves every depth-1 node's `fail_link`
-- unchanged.
theorem getNode_setFail_one_fail :
    ∀ {q : List Char} {t : Trie} {v : Option Trie} {c : Char}, 2 ≤ q.length →
      (Trie.getNode (Trie.setFail t q v) [c]).map Trie.fail_link =
      (Trie.getNode t [c]).map Trie.fail_link := by
  intro q t v c hq
  obtain ⟨cs, iw, tid, m, fl⟩ := t
  cases q with
  | nil => simp at hq
  | cons c' qs =>
    cases qs with
    | nil => simp at hq
    | cons d ds =>
      rcases hl : lookupChild cs c' with _ | child
      · simp [Trie.setFail, hl]
      · simp only [Trie.setFail, hl]
        by_cases hc : c = c'
        · subst hc
          simp only [Trie.getNode, Trie.children, lookupChild_setChild_self, hl]
          simp [Trie.getNode,
            setFail_fail_link_ne_nil (by simp : (d :: ds : List Char) ≠ [])]
        · simp only [Trie.getNode, Trie.children, lookupChild_setChild_ne hc, hl]

theorem stepChild_one_fail {root : Trie} {p : List Char} {pf : Option Trie}
    {c' c : Char} (hp : p ≠ []) :
    (Trie.getNode (stepChild root p pf c') [c]).map Trie.fail_link =
    (Trie.getNode root [c]).map Trie.fail_link := by
  refine getNode_setFail_one_fail ?_
  cases p with
  | nil => cases hp rfl
  | cons x xs => simp

theorem stepChildren_one_fail :
    ∀ {cs : List Char} {root : Trie} {p : List Char} {pf : Option Trie} {c : Char},
      p ≠ [] →
      (Trie.getNode (stepChildren p pf root cs) [c]).map Trie.fail_link =
      (Trie.getNode root [c]).map Trie.fail_link := by
  intro cs
  induction cs with
  | nil => intro root p pf c _; rfl
  | cons c0 rest ih =>
    intro root p pf c hp
    rw [stepChildren]
    exact (ih hp).trans (stepChild_one_fail hp)

theorem bfsLoop_one_fail :
    ∀ {fuel : Nat} {q : List (List Char)} {t : Trie} {c : Char},
      (∀ p ∈ q, p ≠ []) →
      (Trie.getNode (bfsLoop fuel t q) [c]).map Trie.fail_link =
      (Trie.getNode t [c]).map Trie.fail_link := by
  intro fuel
  induction fuel with
  | zero => intro q t c _; rfl
  | succ n ih =>
    intro q t c hq
    cases q with
    | nil => rfl
    | cons p0 rest =>
      have hp0 : p0 ≠ [] := hq p0 (List.mem_cons_self _ _)
      have hrest : ∀ p ∈ rest, p ≠ [] := fun p hp => hq p (List.mem_cons_of_mem _ hp)
      rcases hg : Trie.getNode t p0 with _ | node
      · simp only [bfsLoop, hg]
        exact ih hrest
      · simp only [bfsLoop, hg]
        refine (ih ?_).trans (stepChildren_one_fail hp0)
        intro p hp
        rcases List.mem_append.mp hp with hp1 | hp2
        · exact hrest p hp1
        · rcases List.mem_map.mp hp2 with ⟨c0, _, hc0⟩
          rw [← hc0]
          simp

-- After `build_failure_links`, every existing depth-1 node's failure link is
-- the fresh empty node set by the initialization pass.
theorem build_one_fail {t : Trie} {c : Char} {n : Trie}
    (h : Trie.getNode t [c] = some n) :
    (Trie.getNode (Trie.build_failure_links t) [c]).map Trie.fail_link =
      some (some Trie.new) := by
  obtain ⟨cs, iw, tid, m, fl⟩ := t
  rw [Trie.build_failure_links]
  have hinv : ∀ p ∈ cs.map (fun pr => [pr.1]), p ≠ ([] : List Char) := by
    intro p hp
    rcases List.mem_map.mp hp with ⟨pr, _, hpr⟩
    rw [← hpr]
    simp
  rw [bfsLoop_one_fail hinv]
  rcases initChildFails_lookup cs c with ⟨h1, h2⟩ | ⟨a, b, d, e, fl', h1, h2⟩
  · simp only [Trie.getNode, Trie.children, h2] at h
    cases h
  · simp [Trie.getNode, Trie.children, h2, Trie.fail_link]

-- On a trie whose root has no failure link, whose `#` child (when present)
-- is non-terminal with the fresh empty node as failure link, and whose `##`
-- node (when present) is non-terminal, every match of a probe on a
-- marker-prefixed word ends at position at least 3.
theorem probe_hh_ge {T : Trie} {suffix : List Char} {e : Nat} {i : Int}
    (hroot : Trie.fail_link T = none)
    (h1 : ∀ n1, lookupChild (Trie.children T) '#' = some n1 →
      Trie.is_word n1 = false ∧ Trie.fail_link n1 = some Trie.new ∧
      (∀ n2, lookupChild (Trie.children n1) '#' = some n2 → Trie.is_word n2 = false))
    (hp : Trie.find_longest_prefix T ('#' :: '#' :: suffix) 0 = some (e, i)) :
    3 ≤ e := by
  rw [Trie.find_longest_prefix, List.drop_zero] at hp
  rcases hv : Trie.vsize T with _ | f
  · have := vsize_pos T
    omega
  · rw [hv] at hp
    rcases hl1 : lookupChild (Trie.children T) '#' with _ | n1
    · simp only [probeAux, hl1, hroot] at hp
      cases hp
    · obtain ⟨hw1, hf1, h2⟩ := h1 n1 hl1
      simp only [probeAux, hl1, hw1] at hp
      rcases f with _ | f'
      · rw [probeAux_zero] at hp
        simp at hp
      · rcases hl2 : lookupChild (Trie.children n1) '#' with _ | n2
        · simp only [probeAux, hl2, hf1] at hp
          rw [probeAux_new] at hp
          simp at hp
        · have hw2 := h2 n2 hl2
          simp only [probeAux, hl2, hw2] at hp
          simp only [Bool.false_eq_true, if_false] at hp
          rcases probeAux_some_ge hp with habs | hlt
          · cases habs
          · omega

theorem vocabTrie_fail_link {cfg : CharCfg} {V : List (List Char × Int)} :
    Trie.fail_link (vocabTrie cfg V) = none := by
  rw [vocabTrie]
  have hfold : ∀ (W : List (List Char × Int)) (t0 : Trie),
      Trie.fail_link (W.foldl (fun t kv =>
        if isSpecialKey cfg kv.1 then t else Trie.insert t kv.1 kv.2) t0) =
      Trie.fail_link t0 := by
    intro W
    induction W with
    | nil => intro t0; rfl
    | cons kv rest ih =>
      intro t0
      simp only [List.foldl_cons]
      rw [ih]
      by_cases hk : isSpecialKey cfg kv.1
      · rw [if_pos hk]
      · rw [if_neg hk, Trie.insert]
        exact insertGo_fail_link
  rw [hfold]
  rfl

theorem isSpecialKey_hash {cfg : CharCfg} (h : cfg.isPunct '#' = true) :
    isSpecialKey cfg ['#'] = true := by
  simp [isSpecialKey, startsWithHH, firstIs, List.any, h]

theorem isSpecialKey_hh {cfg : CharCfg} :
    isSpecialKey cfg ['#', '#'] = false := by
  simp [isSpecialKey, startsWithHH]

theorem obsW_eq {n1 n0 : Trie} (h : obsW n1 = obsW n0) :
    Trie.is_word n1 = Trie.is_word n0 ∧ Trie.token_id n1 = Trie.token_id n0 :=
  ⟨congrArg Prod.fst h, congrArg Prod.snd h⟩

-- On the tokenizer's built trie, when `#` is punctuation and `##` is not a
-- vocabulary key: the root has no failure link, the root's `#` child (when
-- present) is non-terminal and carries the fresh empty node as failure link,
-- and the `##` node (when present) is non-terminal.
theorem built_hh (cfg : CharCfg) (V : List (List Char × Int))
    (hpunct : cfg.isPunct '#' = true)
    (hnohh : ∀ p ∈ V, p.1 ≠ (['#', '#'] : List Char)) :
    Trie.fail_link (Trie.build_failure_links (vocabTrie cfg V)) = none ∧
    ∀ n1, lookupChild
        (Trie.children (Trie.build_failure_links (vocabTrie cfg V))) '#' = some n1 →
      Trie.is_word n1 = false ∧ Trie.fail_link n1 = some Trie.new ∧
      ∀ n2, lookupChild (Trie.children n1) '#' = some n2 →
        Trie.is_word n2 = false := by
  constructor
  · rw [build_fail_link]
    exact vocabTrie_fail_link
  · intro n1 hl1
    have hg1 : Trie.getNode (Trie.build_failure_links (vocabTrie cfg V)) ['#']
        = some n1 := by
      simp [Trie.getNode, hl1]
    have hobs := getNode_build_obs (t := vocabTrie cfg V) (p := ['#'])
    rw [hg1] at hobs
    rcases hg0 : Trie.getNode (vocabTrie cfg V) ['#'] with _ | n0
    · rw [hg0] at hobs
      cases hobs
    · rw [hg0] at hobs
      have hobs' : obsW n1 = obsW n0 := by simpa using hobs
      obtain ⟨hwe, _⟩ := obsW_eq hobs'
      have hword0 : Trie.is_word n0 = false := by
        cases hb : Trie.is_word n0 with
        | false => rfl
        | true =>
          obtain ⟨j, hmem, hsp⟩ := vocabTrie_word_src hg0 hb
          rw [isSpecialKey_hash hpunct] at hsp
          cases hsp
      refine ⟨by rw [hwe, hword0], ?_, ?_⟩
      · have hfail := build_one_fail hg0
        rw [hg1] at hfail
        simpa using hfail
      · intro n2 hl2
        have hg2 : Trie.getNode (Trie.build_failure_links (vocabTrie cfg V))
            ['#', '#'] = some n2 := by
          simp [Trie.getNode, hl1, hl2]
        have hobs2 := getNode_build_obs (t := vocabTrie cfg V) (p := ['#', '#'])
        rw [hg2] at hobs2
        rcases hg20 : Trie.getNode (vocabTrie cfg V) ['#', '#'] with _ | n20
        · rw [hg20] at hobs2
          cases hobs2
        · rw [hg20] at hobs2
          have hobs2' : obsW n2 = obsW n20 := by simpa using hobs2
          obtain ⟨hwe2, _⟩ := obsW_eq hobs2'
          have hword20 : Trie.is_word n20 = false := by
            cases hb : Trie.is_word n20 with
            | false => rfl
            | true =>
              obtain ⟨j, hmem, _⟩ := vocabTrie_word_src hg20 hb
              exact absurd rfl (hnohh _ hmem)
          rw [hwe2, hword20]

theorem wpLoop_done {tkz : WordPieceTokenizer} {chars : List Char} {fuel start : Nat}
    {acc : List Token} (h : chars.length ≤ start) :
    wpLoop tkz chars fuel start acc = some acc.reverse := by
  cases fuel with
  | zero => simp [wpLoop, h]
  | succ f => simp [wpLoop, Nat.not_lt.mpr h]

-- One unfolding of the scan loop at an in-range position.
theorem wpLoop_step {tkz : WordPieceTokenizer} {chars : List Char} {fuel start : Nat}
    {acc : List Token} (hlt : start < chars.length) :
    wpLoop tkz chars (fuel + 1) start acc =
      match Trie.find_longest_prefix tkz.trie
          (if start = 0 then chars else '#' :: '#' :: chars.drop start) 0 with
      | some (len, tid) =>
        wpLoop tkz chars fuel
          ((start + (if start = 0 then len else (len + (U64 - 2)) % U64)) % U64)
          (⟨(alLookup tkz.vocab_lookup tid).getD [], tid, false⟩ :: acc)
      | none => some [⟨tkz.unk_token, tkz.unk_token_id, true⟩] := by
  simp only [wpLoop, if_pos hlt]

-- When every probe at position 0 matches at least one character and every
-- probe at a later position matches at least three (and at most the probed
-- word), the scan loop terminates and emits at most one token per character
-- (or the single UNK token).
theorem wpLoop_bound (tkz : WordPieceTokenizer) (chars : List Char)
    (hup : chars.length + 2 < U64)
    (hp0 : ∀ e i, Trie.find_longest_prefix tkz.trie chars 0 = some (e, i) →
      1 ≤ e ∧ e ≤ chars.length)
    (hps : ∀ s e i, 0 < s →
      Trie.find_longest_prefix tkz.trie ('#' :: '#' :: chars.drop s) 0 = some (e, i) →
      3 ≤ e ∧ e ≤ 2 + (chars.length - s)) :
    ∀ (fuel start : Nat) (acc : List Token), chars.length < fuel + start →
      ∃ out, wpLoop tkz chars fuel start acc = some out ∧
        (out.length ≤ acc.length + (chars.length - start) ∨ out.length = 1) := by
  intro fuel
  induction fuel with
  | zero =>
    intro start acc h
    refine ⟨acc.reverse, wpLoop_done (by omega), Or.inl (by simp)⟩
  | succ f ih =>
    intro start acc h
    by_cases hlt : start < chars.length
    · rw [wpLoop_step hlt]
      by_cases hs0 : start = 0
      · subst hs0
        rw [if_pos rfl]
        rcases hpr : Trie.find_longest_prefix tkz.trie chars 0 with _ | pr
        · exact ⟨[⟨tkz.unk_token, tkz.unk_token_id, true⟩], rfl, Or.inr rfl⟩
        · obtain ⟨len, tid⟩ := pr
          obtain ⟨h1, h2⟩ := hp0 len tid hpr
          have hif : (if (0 : Nat) = 0 then len else (len + (U64 - 2)) % U64) = len :=
            if_pos rfl
          have hmod : (0 + (if (0 : Nat) = 0 then len else (len + (U64 - 2)) % U64))
              % U64 = len := by
            rw [hif, Nat.zero_add]
            exact Nat.mod_eq_of_lt (by omega)
          obtain ⟨out, hout, hb⟩ := ih len
            (⟨(alLookup tkz.vocab_lookup tid).getD [], tid, false⟩ :: acc) (by omega)
          refine ⟨out, ?_, ?_⟩
          · show wpLoop tkz chars f
              ((0 + (if (0 : Nat) = 0 then len else (len + (U64 - 2)) % U64)) % U64)
              (⟨(alLookup tkz.vocab_lookup tid).getD [], tid, false⟩ :: acc) = some out
            rw [hmod]
            exact hout
          · rcases hb with hb | hb
            · left
              simp only [List.length_cons] at hb
              omega
            · exact Or.inr hb
      · rw [if_neg hs0]
        rcases hpr : Trie.find_longest_prefix tkz.trie
            ('#' :: '#' :: chars.drop start) 0 with _ | pr
        · exact ⟨[⟨tkz.unk_token, tkz.unk_token_id, true⟩], rfl, Or.inr rfl⟩
        · obtain ⟨len, tid⟩ := pr
          obtain ⟨h1, h2⟩ := hps start len tid (Nat.pos_of_ne_zero hs0) hpr
          have hU : (2 : Nat) ≤ U64 := by rw [U64]; norm_num
          have hif : (if start = 0 then len else (len + (U64 - 2)) % U64) =
              (len + (U64 - 2)) % U64 := if_neg hs0
          have hsub : (len + (U64 - 2)) % U64 = len - 2 := by
            have he : len + (U64 - 2) = (len - 2) + U64 := by omega
            rw [he, Nat.add_mod_right]
            exact Nat.mod_eq_of_lt (by omega)
          have hmod : (start + (if start = 0 then len else (len + (U64 - 2)) % U64))
              % U64 = start + (len - 2) := by
            rw [hif, hsub]
            exact Nat.mod_eq_of_lt (by omega)
          obtain ⟨out, hout, hb⟩ := ih (start + (len - 2))
            (⟨(alLookup tkz.vocab_lookup tid).getD [], tid, false⟩ :: acc) (by omega)
          refine ⟨out, ?_, ?_⟩
          · show wpLoop tkz chars f
              ((start + (if start = 0 then len else (len + (U64 - 2)) % U64)) % U64)
              (⟨(alLookup tkz.vocab_lookup tid).getD [], tid, false⟩ :: acc) = some out
            rw [hmod]
            exact hout
          · rcases hb with hb | hb
            · left
              simp only [List.length_cons] at hb
              omega
            · exact Or.inr hb
    · exact ⟨acc.reverse, wpLoop_done (by omega), Or.inl (by simp)⟩

-- All-or-nothing shape of the scan loop: it either diverges, or returns the
-- single special UNK token, or returns only non-special matched pieces.
theorem wpLoop_shape (tkz : WordPieceTokenizer) (chars : List Char) :
    ∀ (fuel start : Nat) (acc : List Token), (∀ p ∈ acc, p.is_special = false) →
      wpLoop tkz chars fuel start acc = none
      ∨ wpLoop tkz chars fuel start acc =
          some [⟨tkz.unk_token, tkz.unk_token_id, true⟩]
      ∨ ∃ out, wpLoop tkz chars fuel start acc = some out ∧
          ∀ p ∈ out, p.is_special = false := by
  intro fuel
  induction fuel with
  | zero =>
    intro start acc hacc
    by_cases h : chars.length ≤ start
    · right; right
      refine ⟨acc.reverse, by simp [wpLoop, h], ?_⟩
      intro p hp
      exact hacc p (List.mem_reverse.mp hp)
    · left
      simp [wpLoop, h]
  | succ f ih =>
    intro start acc hacc
    by_cases hlt : start < chars.length
    · rw [wpLoop_step hlt]
      rcases hpr : Trie.find_longest_prefix tkz.trie
          (if start = 0 then chars else '#' :: '#' :: chars.drop start) 0 with _ | pr
      · right; left
        rfl
      · obtain ⟨len, tid⟩ := pr
        have hacc' : ∀ p ∈ (⟨(alLookup tkz.vocab_lookup tid).getD [], tid, false⟩ :: acc
            : List Token), p.is_special = false := by
          intro p hp
          rcases List.mem_cons.mp hp with heq | hmem
          · rw [heq]
          · exact hacc p hmem
        rcases ih ((start + (if start = 0 then len else (len + (U64 - 2)) % U64)) % U64)
            _ hacc' with h1 | h2 | ⟨out, hout, hmem⟩
        · left
          exact h1
        · right; left
          exact h2
        · right; right
          exact ⟨out, hout, hmem⟩
    · right; right
      refine ⟨acc.reverse, wpLoop_done (by omega), ?_⟩
      intro p hp
      exact hacc p (List.mem_reverse.mp hp)

-- Probe bounds on the constructed trie: every match at position 0 covers at
-- least one character and at most the word; every match on a
-- marker-prefixed word covers at least three characters and at most the
-- probed word.
theorem built_probe_bounds (cfg : CharCfg) (V : List (List Char × Int))
    (hpunct : cfg.isPunct '#' = true)
    (hnohh : ∀ p ∈ V, p.1 ≠ (['#', '#'] : List Char)) (chars : List Char) :
    (∀ e i, Trie.find_longest_prefix (Trie.build_failure_links (vocabTrie cfg V))
        chars 0 = some (e, i) → 1 ≤ e ∧ e ≤ chars.length)
    ∧ (∀ s e i, 0 < s →
        Trie.find_longest_prefix (Trie.build_failure_links (vocabTrie cfg V))
          ('#' :: '#' :: chars.drop s) 0 = some (e, i) →
        3 ≤ e ∧ e ≤ 2 + (chars.length - s)) := by
  constructor
  · intro e i hp
    refine ⟨flp_lt hp, ?_⟩
    have hle := flp_le hp
    simpa using hle
  · intro s e i hs hp
    constructor
    · exact probe_hh_ge (built_hh cfg V hpunct hnohh).1 (built_hh cfg V hpunct hnohh).2 hp
    · have hle := flp_le hp
      simp only [List.drop_zero, Nat.zero_add, List.length_cons, List.length_drop] at hle
      omega

theorem optMapM_length_le {M : Nat} (f : Token → Option (List Token)) :
    ∀ (l : List Token), (∀ b ∈ l, ∃ out, f b = some out ∧ out.length ≤ M) →
      ∃ rs, optMapM f l = some rs ∧ rs.flatten.length ≤ l.length * M := by
  intro l
  induction l with
  | nil =>
    intro _
    exact ⟨[], rfl, by simp⟩
  | cons b bs ih =>
    intro hall
    obtain ⟨out, hout, hle⟩ := hall b (List.mem_cons_self _ _)
    obtain ⟨rs, hrs, hrle⟩ := ih (fun b' hb' => hall b' (List.mem_cons_of_mem _ hb'))
    refine ⟨out :: rs, ?_, ?_⟩
    · simp [optMapM, hout, hrs]
    · simp only [List.flatten_cons, List.length_append, List.length_cons, Nat.succ_mul]
      omega

-- Per-coarse-token bound: for a tokenizer whose vocabulary has no `##` key
-- and whose ceiling is at least 1, `wordpiece_tokenize` returns, with at
-- most `max_input_chars_per_word` pieces.
theorem wordpiece_tokenize_bound (cfg : CharCfg) (V : List (List Char × Int))
    (unk : List Char) (maxc : Nat) (sa lc : Bool)
    (hpunct : cfg.isPunct '#' = true)
    (hnohh : ∀ p ∈ V, p.1 ≠ (['#', '#'] : List Char))
    (hmax1 : 1 ≤ maxc) (hup : maxc + 2 < U64) (tok : Token) :
    ∃ out, WordPieceTokenizer.wordpiece_tokenize
        (WordPieceTokenizer.new cfg V unk maxc sa lc) tok = some out ∧
      out.length ≤ maxc := by
  by_cases hsp : tok.is_special
  · refine ⟨[tok], ?_, by simp; omega⟩
    simp [WordPieceTokenizer.wordpiece_tokenize, hsp]
  · by_cases hlen : maxc < tok.text.length
    · refine ⟨[⟨(WordPieceTokenizer.new cfg V unk maxc sa lc).unk_token,
        (WordPieceTokenizer.new cfg V unk maxc sa lc).unk_token_id, true⟩], ?_,
        by simp; omega⟩
      simp only [WordPieceTokenizer.wordpiece_tokenize, Bool.not_eq_true] at *
      rw [if_neg (by rw [hsp]; exact Bool.false_ne_true)]
      rw [if_pos (by exact hlen)]
    · have hbounds := built_probe_bounds cfg V hpunct hnohh tok.text
      obtain ⟨out, hout, hb⟩ := wpLoop_bound
        (WordPieceTokenizer.new cfg V unk maxc sa lc) tok.text
        (by omega : tok.text.length + 2 < U64) hbounds.1 hbounds.2
        (tok.text.length + 1) 0 [] (by omega)
      refine ⟨out, ?_, ?_⟩
      · simp only [WordPieceTokenizer.wordpiece_tokenize, Bool.not_eq_true] at *
        have hproj : (WordPieceTokenizer.new cfg V unk maxc sa lc).max_input_chars_per_word
            = maxc := rfl
        rw [if_neg (by rw [hsp]; exact Bool.false_ne_true), hproj, if_neg hlen]
        exact hout
      · rcases hb with hb | hb
        · simp only [List.length_nil] at hb
          omega
        · omega

/-- Claim C9: for every tokenizer whose vocabulary does not contain the
two-character string `##` as a key (`#` being punctuation, so no other trie
entry starts with a single `#`), the wordpiece scan makes progress: every
match advances the position (at position 0 every match covers at least one
character; at later positions every match on the marker-prefixed word has
length at least three, so length minus two is at least one), and
`wordpiece_tokenize` terminates on every non-special token within the
ceiling. -/
theorem claim_C9 (cfg : CharCfg) (V : List (List Char × Int)) (unk : List Char)
    (maxc : Nat) (sa lc : Bool)
    (hpunct : cfg.isPunct '#' = true)
    (hnohh : ∀ p ∈ V, p.1 ≠ (['#', '#'] : List Char))
    (hup : maxc + 2 < U64) :
    (∀ (chars : List Char) (start e : Nat) (i : Int),
      Trie.find_longest_prefix (WordPieceTokenizer.new cfg V unk maxc sa lc).trie
        chars start = some (e, i) → start < e)
    ∧ (∀ (suffix : List Char) (e : Nat) (i : Int),
      Trie.find_longest_prefix (WordPieceTokenizer.new cfg V unk maxc sa lc).trie
        ('#' :: '#' :: suffix) 0 = some (e, i) → 3 ≤ e)
    ∧ (∀ tok : Token, tok.is_special = false → tok.text.length ≤ maxc →
      (WordPieceTokenizer.wordpiece_tokenize
        (WordPieceTokenizer.new cfg V unk maxc sa lc) tok).isSome = true) := by
  refine ⟨?_, ?_, ?_⟩
  · intro chars start e i hp
    exact flp_lt hp
  · intro suffix e i hp
    exact probe_hh_ge (built_hh cfg V hpunct hnohh).1 (built_hh cfg V hpunct hnohh).2 hp
  · intro tok hsp hlen
    have hbounds := built_probe_bounds cfg V hpunct hnohh tok.text
    obtain ⟨out, hout, _⟩ := wpLoop_bound (WordPieceTokenizer.new cfg V unk maxc sa lc)
      tok.text (by omega) hbounds.1 hbounds.2 (tok.text.length + 1) 0 [] (by omega)
    simp only [WordPieceTokenizer.wordpiece_tokenize]
    rw [if_neg (by rw [hsp]; exact Bool.false_ne_true)]
    have hproj : (WordPieceTokenizer.new cfg V unk maxc sa lc).max_input_chars_per_word
        = maxc := rfl
    rw [hproj, if_neg (by omega)]
    rw [hout]
    rfl

theorem claim_C9_witness :
    (WordPieceTokenizer.wordpiece_tokenize exTkz ⟨"unknown".toList, -1, false⟩).isSome
      = true :=
  (claim_C9 asciiCfg exampleVocab ("[UNK]".toList) 200 true true (by decide) (by decide)
    (by decide)).2.2 ⟨"unknown".toList, -1, false⟩ (by decide) (by decide)

/-- Claim C7 (amended): for every tokenizer constructed with a ceiling of at
least one character (the ceiling plus two below the `usize` range) from a
vocabulary that has no `##` key, `tokenize` returns on every input and the
length of its result is at most the number of coarse tokens produced by
basic tokenization times the ceiling. -/
theorem claim_C7_amended (cfg : CharCfg) (V : List (List Char × Int))
    (unk : List Char) (maxc : Nat) (sa lc : Bool) (text : List Char)
    (hpunct : cfg.isPunct '#' = true)
    (hnohh : ∀ p ∈ V, p.1 ≠ (['#', '#'] : List Char))
    (hmax1 : 1 ≤ maxc) (hup : maxc + 2 < U64) :
    ∃ out, WordPieceTokenizer.tokenize (WordPieceTokenizer.new cfg V unk maxc sa lc)
        text = some out ∧
      out.length ≤ (WordPieceTokenizer.basic_tokenize
        (WordPieceTokenizer.new cfg V unk maxc sa lc) text).length * maxc := by
  obtain ⟨rs, hrs, hlen⟩ := optMapM_length_le
    (WordPieceTokenizer.wordpiece_tokenize (WordPieceTokenizer.new cfg V unk maxc sa lc))
    (WordPieceTokenizer.basic_tokenize (WordPieceTokenizer.new cfg V unk maxc sa lc) text)
    (fun b _ => wordpiece_tokenize_bound cfg V unk maxc sa lc hpunct hnohh hmax1 hup b)
  refine ⟨(rs.flatten).map Token.text, ?_, ?_⟩
  · simp only [WordPieceTokenizer.tokenize]
    rw [hrs]
  · rw [List.length_map]
    exact hlen

theorem claim_C7_amended_witness :
    ∃ out, WordPieceTokenizer.tokenize exTkz ("unaffable".toList) = some out ∧
      out.length ≤
        (WordPieceTokenizer.basic_tokenize exTkz ("unaffable".toList)).length * 200 :=
  claim_C7_amended asciiCfg exampleVocab ("[UNK]".toList) 200 true true
    ("unaffable".toList) (by decide) (by decide) (by decide) (by decide)

/-- Claim C3: for every non-special coarse token within the character
ceiling, `wordpiece_tokenize` is all-or-nothing: it never emits partial
pieces together with an UNK — the result is either the single special UNK
token, or a list of non-special matched pieces (or the loop does not
terminate and no output is produced at all).  In particular, with the
worked-example vocabulary, tokenizing `unknownword` yields `["[UNK]"]`. -/
theorem claim_C3 (cfg : CharCfg) (V : List (List Char × Int)) (unk : List Char)
    (maxc : Nat) (sa lc : Bool) (tok : Token)
    (hsp : tok.is_special = false) (hlen : tok.text.length ≤ maxc) :
    (WordPieceTokenizer.wordpiece_tokenize
        (WordPieceTokenizer.new cfg V unk maxc sa lc) tok = none
      ∨ WordPieceTokenizer.wordpiece_tokenize
          (WordPieceTokenizer.new cfg V unk maxc sa lc) tok =
        some [⟨(WordPieceTokenizer.new cfg V unk maxc sa lc).unk_token,
          (WordPieceTokenizer.new cfg V unk maxc sa lc).unk_token_id, true⟩]
      ∨ ∃ out, WordPieceTokenizer.wordpiece_tokenize
          (WordPieceTokenizer.new cfg V unk maxc sa lc) tok = some out ∧
        ∀ p ∈ out, p.is_special = false)
    ∧ WordPieceTokenizer.tokenize exTkz ("unknownword".toList) =
        some ["[UNK]".toList] := by
  constructor
  · have hshape := wpLoop_shape (WordPieceTokenizer.new cfg V unk maxc sa lc) tok.text
      (tok.text.length + 1) 0 [] (by intro p hp; cases hp)
    simp only [WordPieceTokenizer.wordpiece_tokenize]
    rw [if_neg (by rw [hsp]; exact Bool.false_ne_true)]
    have hproj : (WordPieceTokenizer.new cfg V unk maxc sa lc).max_input_chars_per_word
        = maxc := rfl
    rw [hproj, if_neg (Nat.not_lt.mpr hlen)]
    exact hshape
  · decide

theorem claim_C3_witness :
    (WordPieceTokenizer.wordpiece_tokenize exTkz ⟨"xyz".toList, -1, false⟩ = none
      ∨ WordPieceTokenizer.wordpiece_tokenize exTkz ⟨"xyz".toList, -1, false⟩ =
        some [⟨exTkz.unk_token, exTkz.unk_token_id, true⟩]
      ∨ ∃ out, WordPieceTokenizer.wordpiece_tokenize exTkz ⟨"xyz".toList, -1, false⟩ =
          some out ∧ ∀ p ∈ out, p.is_special = false)
    ∧ WordPieceTokenizer.tokenize exTkz ("unknownword".toList) =
        some ["[UNK]".toList] :=
  claim_C3 asciiCfg exampleVocab ("[UNK]".toList) 200 true true
    ⟨"xyz".toList, -1, false⟩ rfl (by decide)

theorem idsOk_new {S : List Int} : IdsOk S Trie.new := by
  show IdsOk S (.mk [] false (-1) 0 none)
  refine IdsOk.intro ?_ ?_ ?_
  · intro h
    cases h
  · intro c t h
    cases h
  · intro f h
    cases h

theorem idsOk_child {S : List Int} {cs : List (Char × Trie)} {iw : Bool} {tid : Int}
    {m : Nat} {fl : Option Trie} {c : Char} {t : Trie}
    (h : IdsOk S (.mk cs iw tid m fl)) (hl : lookupChild cs c = some t) :
    IdsOk S t := by
  cases h with
  | intro hw hcs hfl => exact hcs c t (lookupChild_mem hl)

theorem idsOk_fail {S : List Int} {t f : Trie} (h : IdsOk S t)
    (hf : Trie.fail_link t = some f) : IdsOk S f := by
  obtain ⟨cs, iw, tid, m, fl⟩ := t
  cases h with
  | intro hw hcs hfl =>
    apply hfl
    simpa [Trie.fail_link] using hf

theorem idsOk_word {S : List Int} {t : Trie} (h : IdsOk S t)
    (hw : Trie.is_word t = true) : Trie.token_id t ∈ S := by
  obtain ⟨cs, iw, tid, m, fl⟩ := t
  cases h with
  | intro hw0 hcs hfl =>
    simp only [Trie.is_word] at hw
    simpa [Trie.token_id] using hw0 hw

-- Every id returned by the scan is an id stored in the trie value.
theorem probeAux_ids {S : List Int} :
    ∀ {fuel : Nat} {node : Trie} {rem : List Char} {pos : Nat}
      {last : Option (Nat × Int)} {e : Nat} {i : Int},
      IdsOk S node → (∀ e' i', last = some (e', i') → i' ∈ S) →
      probeAux fuel node rem pos last = some (e, i) → i ∈ S := by
  intro fuel
  induction fuel with
  | zero =>
    intro node rem pos last e i _ hlast h
    rw [probeAux_zero] at h
    exact hlast e i h
  | succ n ih =>
    intro node rem pos last e i hok hlast h
    cases rem with
    | nil =>
      rw [probeAux_nil] at h
      exact hlast e i h
    | cons c rest =>
      rcases hl : lookupChild (Trie.children node) c with _ | next
      · rcases hf : Trie.fail_link node with _ | fail
        · simp only [probeAux, hl, hf] at h
          exact hlast e i h
        · simp only [probeAux, hl, hf] at h
          exact ih (idsOk_fail hok hf) hlast h
      · simp only [probeAux, hl] at h
        have hnext : IdsOk S next := by
          obtain ⟨cs, iw, tid, m, fl⟩ := node
          exact idsOk_child hok (by simpa [Trie.children] using hl)
        refine ih hnext ?_ h
        intro e' i' he'
        by_cases hw : Trie.is_word next
        · rw [if_pos hw] at he'
          injection he' with h1
          injection h1 with h2 h3
          rw [← h3]
          exact idsOk_word hnext hw
        · rw [if_neg hw] at he'
          exact hlast e' i' he'

theorem idsOk_insertGo {S : List Int} :
    ∀ {w : List Char} {wlen : Nat} {tid : Int} {t : Trie},
      tid ∈ S → IdsOk S t → IdsOk S (Trie.insertGo w wlen tid t) := by
  intro w
  induction w with
  | nil =>
    intro wlen tid t hmem h
    obtain ⟨cs, iw, told, m, fl⟩ := t
    cases h with
    | intro hw hcs hfl =>
      exact IdsOk.intro (fun _ => hmem) hcs hfl
  | cons c rest ih =>
    intro wlen tid t hmem h
    obtain ⟨cs, iw, told, m, fl⟩ := t
    cases h with
    | intro hw hcs hfl =>
      refine IdsOk.intro hw ?_ hfl
      intro c' t' hmem'
      rcases mem_setChild hmem' with hin | heq
      · exact hcs c' t' hin
      · rw [heq]
        refine ih hmem ?_
        rcases hl : lookupChild cs c with _ | told'
        · exact idsOk_new
        · exact hcs c told' (lookupChild_mem hl)

theorem idsOk_vocabTrie {cfg : CharCfg} {V : List (List Char × Int)} :
    IdsOk (V.map (fun kv => kv.2)) (vocabTrie cfg V) := by
  rw [vocabTrie]
  have hfold : ∀ (W : List (List Char × Int)) (S : List Int) (t0 : Trie),
      (∀ kv ∈ W, kv.2 ∈ S) → IdsOk S t0 →
      IdsOk S (W.foldl (fun t kv =>
        if isSpecialKey cfg kv.1 then t else Trie.insert t kv.1 kv.2) t0) := by
    intro W
    induction W with
    | nil => intro S t0 _ h; exact h
    | cons kv rest ih =>
      intro S t0 hall h
      simp only [List.foldl_cons]
      refine ih S _ (fun kv' h' => hall kv' (List.mem_cons_of_mem _ h')) ?_
      by_cases hk : isSpecialKey cfg kv.1
      · rw [if_pos hk]
        exact h
      · rw [if_neg hk, Trie.insert]
        exact idsOk_insertGo (hall kv (List.mem_cons_self _ _)) h
  refine hfold V _ Trie.new ?_ idsOk_new
  intro kv hkv
  exact List.mem_map_of_mem _ hkv

theorem idsOk_setFail {S : List Int} :
    ∀ {q : List Char} {t v : Trie}, IdsOk S t → IdsOk S v →
      IdsOk S (Trie.setFail t q (some v)) := by
  intro q
  induction q with
  | nil =>
    intro t v h hv
    obtain ⟨cs, iw, tid, m, fl⟩ := t
    cases h with
    | intro hw hcs hfl =>
      refine IdsOk.intro hw hcs ?_
      intro f hf
      injection hf with hf
      rw [← hf]
      exact hv
  | cons c qs ih =>
    intro t v h hv
    obtain ⟨cs, iw, tid, m, fl⟩ := t
    cases h with
    | intro hw hcs hfl =>
      rcases hl : lookupChild cs c with _ | child
      · simp only [Trie.setFail, hl]
        exact IdsOk.intro hw hcs hfl
      · simp only [Trie.setFail, hl]
        refine IdsOk.intro hw ?_ hfl
        intro c' t' hmem'
        rcases mem_setChild hmem' with hin | heq
        · exact hcs c' t' hin
        · rw [heq]
          exact ih (hcs c child (lookupChild_mem hl)) hv

theorem idsOk_chaseAux {S : List Int} :
    ∀ {fuel : Nat} {v : Trie} {c : Char} {n : Trie},
      IdsOk S v → chaseAux fuel v c = some n → IdsOk S n := by
  intro fuel
  induction fuel with
  | zero =>
    intro v c n _ hc
    cases hc
  | succ k ih =>
    intro v c n hok hc
    obtain ⟨cs, iw, tid, m, fl⟩ := v
    rcases hl : lookupChild cs c with _ | ct
    · simp only [chaseAux, hl] at hc
      rcases fl with _ | f
      · cases hc
      · exact ih (idsOk_fail hok rfl) hc
    · simp only [chaseAux, hl] at hc
      injection hc with hc
      rw [← hc]
      exact idsOk_child hok hl

theorem idsOk_chase {S : List Int} {v : Trie} {c : Char} {n : Trie}
    (hok : IdsOk S v) (hc : Trie.chase v c = some n) : IdsOk S n :=
  idsOk_chaseAux hok hc

theorem idsOk_getNode {S : List Int} :
    ∀ {p : List Char} {t n : Trie}, IdsOk S t → Trie.getNode t p = some n →
      IdsOk S n := by
  intro p
  induction p with
  | nil =>
    intro t n h hg
    simp only [Trie.getNode] at hg
    injection hg with hg
    rw [← hg]
    exact h
  | cons c ps ih =>
    intro t n h hg
    simp only [Trie.getNode] at hg
    rcases hl : lookupChild (Trie.children t) c with _ | child
    · rw [hl] at hg
      cases hg
    · rw [hl] at hg
      obtain ⟨cs, iw, tid, m, fl⟩ := t
      exact ih (idsOk_child h (by simpa [Trie.children] using hl)) hg

theorem idsOk_stepChild {S : List Int} {root : Trie} {p : List Char}
    {pf : Option Trie} {c : Char} (hroot : IdsOk S root)
    (hpf : ∀ f, pf = some f → IdsOk S f) : IdsOk S (stepChild root p pf c) := by
  show IdsOk S (Trie.setFail root (p ++ [c]) (some _))
  apply idsOk_setFail hroot
  rcases pf with _ | pfv
  · exact hroot
  · rcases hch : Trie.chase pfv c with _ | n
    · simp only [hch]
      exact hroot
    · simp only [hch]
      exact idsOk_chase (hpf pfv rfl) hch

theorem idsOk_stepChildren {S : List Int} :
    ∀ {cs : List Char} {root : Trie} {p : List Char} {pf : Option Trie},
      IdsOk S root → (∀ f, pf = some f → IdsOk S f) →
      IdsOk S (stepChildren p pf root cs) := by
  intro cs
  induction cs with
  | nil => intro root p pf h _; exact h
  | cons c rest ih =>
    intro root p pf h hpf
    rw [stepChildren]
    exact ih (idsOk_stepChild h hpf) hpf

theorem idsOk_bfsLoop {S : List Int} :
    ∀ {fuel : Nat} {q : List (List Char)} {t : Trie},
      IdsOk S t → IdsOk S (bfsLoop fuel t q) := by
  intro fuel
  induction fuel with
  | zero => intro q t h; exact h
  | succ n ih =>
    intro q t h
    cases q with
    | nil => exact h
    | cons p0 rest =>
      rcases hg : Trie.getNode t p0 with _ | node
      · simp only [bfsLoop, hg]
        exact ih h
      · simp only [bfsLoop, hg]
        refine ih (idsOk_stepChildren h ?_)
        intro f hf
        exact idsOk_fail (idsOk_getNode h hg) hf

theorem mem_initChildFails :
    ∀ {cs : List (Char × Trie)} {c : Char} {t : Trie}, (c, t) ∈ initChildFails cs →
      ∃ a b d e fl', (c, Trie.mk a b d e fl') ∈ cs ∧ t = Trie.mk a b d e (some Trie.new) := by
  intro cs
  induction cs with
  | nil => intro c t h; cases h
  | cons hd tl ih =>
    intro c t h
    obtain ⟨c', t'⟩ := hd
    obtain ⟨a, b, d, e, fl'⟩ := t'
    simp only [initChildFails] at h
    rcases List.mem_cons.mp h with heq | hmem
    · injection heq with h1 h2
      subst h1
      exact ⟨a, b, d, e, fl', List.mem_cons_self _ _, h2⟩
    · obtain ⟨a2, b2, d2, e2, fl2, hin, heq2⟩ := ih hmem
      exact ⟨a2, b2, d2, e2, fl2, List.mem_cons_of_mem _ hin, heq2⟩

theorem idsOk_initChildFails {S : List Int} {cs : List (Char × Trie)} {iw : Bool}
    {tid : Int} {m : Nat} {fl : Option Trie}
    (h : IdsOk S (.mk cs iw tid m fl)) :
    IdsOk S (.mk (initChildFails cs) iw tid m fl) := by
  cases h with
  | intro hw hcs hfl =>
    refine IdsOk.intro hw ?_ hfl
    intro c t hmem
    obtain ⟨a, b, d, e, fl', hin, heq⟩ := mem_initChildFails hmem
    have horig := hcs c _ hin
    cases horig with
    | intro hw2 hcs2 hfl2 =>
      rw [heq]
      refine IdsOk.intro hw2 hcs2 ?_
      intro f hf
      injection hf with hf
      rw [← hf]
      exact idsOk_new

theorem idsOk_build {S : List Int} {t : Trie} (h : IdsOk S t) :
    IdsOk S (Trie.build_failure_links t) := by
  obtain ⟨cs, iw, tid, m, fl⟩ := t
  rw [Trie.build_failure_links]
  exact idsOk_bfsLoop (idsOk_initChildFails h)

/-- Claim C10: for every constructed tokenizer, every id returned by
`find_longest_prefix` — including ids found through failure-link copies — is
present in `vocab_lookup`, so the `.unwrap()` of the canonical text inside
`wordpiece_tokenize` can never fail: every terminal id stored anywhere in
the built trie was inserted into `vocab_lookup` during construction. -/
theorem claim_C10 (cfg : CharCfg) (V : List (List Char × Int)) (unk : List Char)
    (maxc : Nat) (sa lc : Bool) (chars : List Char) (start e : Nat) (i : Int)
    (hp : Trie.find_longest_prefix (WordPieceTokenizer.new cfg V unk maxc sa lc).trie
      chars start = some (e, i)) :
    (alLookup (WordPieceTokenizer.new cfg V unk maxc sa lc).vocab_lookup i).isSome
      = true := by
  have hok : IdsOk (V.map (fun kv => kv.2))
      ((WordPieceTokenizer.new cfg V unk maxc sa lc).trie) :=
    idsOk_build idsOk_vocabTrie
  rw [Trie.find_longest_prefix] at hp
  have hmem : i ∈ V.map (fun kv => kv.2) :=
    probeAux_ids hok (by intro e' i' h'; cases h') hp
  rcases List.mem_map.mp hmem with ⟨kv, hkv, hkv2⟩
  have hkmem : (kv.1, i) ∈ V := by
    rw [← hkv2]
    simpa using hkv
  exact vocabLookupOf_mem hkmem

theorem claim_C10_witness :
    (alLookup exTkz.vocab_lookup 10).isSome = true :=
  claim_C10 asciiCfg exampleVocab ("[UNK]".toList) 200 true true
    ("unaffable".toList) 0 2 10 (by decide)

theorem wordpiece_nonspecial {tkz : WordPieceTokenizer} {s : List Char}
    (hlen : ¬ tkz.max_input_chars_per_word < s.length) :
    WordPieceTokenizer.wordpiece_tokenize tkz ⟨s, -1, false⟩ =
      wpLoop tkz s (s.length + 1) 0 [] := by
  simp [WordPieceTokenizer.wordpiece_tokenize, hlen]

-- A probe that matches the whole word in one step makes the scan loop emit
-- exactly one piece.
theorem wpLoop_single {tkz : WordPieceTokenizer} {s : List Char} {i : Int}
    (hne : s ≠ []) (hU : s.length < U64)
    (hprobe : Trie.find_longest_prefix tkz.trie s 0 = some (0 + s.length, i)) :
    wpLoop tkz s (s.length + 1) 0 [] =
      some [⟨(alLookup tkz.vocab_lookup i).getD [], i, false⟩] := by
  have hlt : 0 < s.length := List.length_pos.mpr hne
  rw [wpLoop_step hlt]
  have hprobe' : Trie.find_longest_prefix tkz.trie
      (if (0 : Nat) = 0 then s else '#' :: '#' :: s.drop 0) 0
      = some (0 + s.length, i) := by
    rw [if_pos rfl]
    exact hprobe
  rw [hprobe']
  show wpLoop tkz s s.length
      ((0 + (if (0 : Nat) = 0 then (0 + s.length)
        else ((0 + s.length) + (U64 - 2)) % U64)) % U64)
      [⟨(alLookup tkz.vocab_lookup i).getD [], i, false⟩] = _
  have hmod : (0 + (if (0 : Nat) = 0 then (0 + s.length)
      else ((0 + s.length) + (U64 - 2)) % U64)) % U64 = s.length := by
    rw [if_pos rfl, Nat.zero_add, Nat.zero_add]
    exact Nat.mod_eq_of_lt hU
  rw [hmod]
  rw [wpLoop_done (Nat.le_refl _)]
  rfl

/-- Claim C5 (amended): for every vocabulary entry `s` with id `i` that the
constructor inserts into the trie (it is not special-shaped), that carries
no other id, that is nonempty and within the character ceiling (the ceiling
within the `usize` range), and that basic tokenization passes through
unchanged as the single non-special coarse token `s`, encoding the text `s`
yields exactly `[i]`. -/
theorem claim_C5_amended (cfg : CharCfg) (V : List (List Char × Int))
    (unk : List Char) (maxc : Nat) (sa lc : Bool) (s : List Char) (i : Int)
    (hmem : (s, i) ∈ V) (huniq : ∀ j, (s, j) ∈ V → j = i)
    (hsp : isSpecialKey cfg s = false) (hne : s ≠ []) (hlen : s.length ≤ maxc)
    (hmU : maxc < U64)
    (hbasic : WordPieceTokenizer.basic_tokenize
      (WordPieceTokenizer.new cfg V unk maxc sa lc) s = [⟨s, -1, false⟩]) :
    WordPieceTokenizer.encode (WordPieceTokenizer.new cfg V unk maxc sa lc) s
      = some [i] := by
  obtain ⟨n0, hn0, hw0, hi0⟩ := vocabTrie_word_dst hmem huniq hsp
  have hobs := getNode_build_obs (t := vocabTrie cfg V) (p := s)
  rw [hn0] at hobs
  rcases hn1 : Trie.getNode (Trie.build_failure_links (vocabTrie cfg V)) s with _ | n1
  · rw [hn1] at hobs
    cases hobs
  · rw [hn1] at hobs
    have hobs' : obsW n1 = obsW n0 := by simpa using hobs
    obtain ⟨hwe, hte⟩ := obsW_eq hobs'
    have hprobe : Trie.find_longest_prefix
        (Trie.build_failure_links (vocabTrie cfg V)) s 0 = some (0 + s.length, i) := by
      rw [Trie.find_longest_prefix, List.drop_zero]
      rw [probeAux_path (Trie.vsize (Trie.build_failure_links (vocabTrie cfg V)))
        (Trie.build_failure_links (vocabTrie cfg V)) 0 none (Nat.le_refl _) hn1
        (by rw [hwe, hw0]) hne]
      rw [hte, hi0]
    have hwp := (wordpiece_nonspecial
        (show ¬ (WordPieceTokenizer.new cfg V unk maxc sa lc).max_input_chars_per_word
          < s.length from Nat.not_lt.mpr hlen)).trans
      (wpLoop_single hne (by omega) hprobe)
    simp only [WordPieceTokenizer.encode]
    rw [hbasic]
    have hm : optMapM (WordPieceTokenizer.wordpiece_tokenize
        (WordPieceTokenizer.new cfg V unk maxc sa lc)) [⟨s, -1, false⟩] =
        some [[⟨(alLookup (WordPieceTokenizer.new cfg V unk maxc sa lc).vocab_lookup
          i).getD [], i, false⟩]] := by
      simp only [optMapM, hwp]
    rw [hm]
    rfl

theorem claim_C5_amended_witness :
    WordPieceTokenizer.encode exTkz ("un".toList) = some [10] := by
  refine claim_C5_amended asciiCfg exampleVocab ("[UNK]".toList) 200 true true
    ("un".toList) 10 (by decide) ?_ (by decide) (by decide) (by decide) (by decide)
    (by decide)
  intro j hj
  simp only [exampleVocab, List.mem_cons, List.not_mem_nil, or_false,
    Prod.mk.injEq] at hj
  rcases hj with ⟨h1, h2⟩ | ⟨h1, h2⟩ | ⟨h1, h2⟩ | ⟨h1, h2⟩
  · exact h2
  · exact absurd h1 (by decide)
  · exact absurd h1 (by decide)
  · exact absurd h1 (by decide)

/-- Claim C8 (amended): the constructor partitions the vocabulary by the test
`!key.starts_with("##") && (key.starts_with('[') || key.starts_with('<') ||
key contains a punctuation character)`: every entry passing the test is
recorded in the special-token map, and every entry failing it is inserted
into the trie, where its path ends at a terminal node. -/
theorem claim_C8_amended (cfg : CharCfg) (V : List (List Char × Int))
    (unk : List Char) (maxc : Nat) (sa lc : Bool) (k : List Char) (v : Int)
    (hmem : (k, v) ∈ V) :
    (isSpecialKey cfg k = true →
      (alLookup ((WordPieceTokenizer.new cfg V unk maxc sa lc).special_tokens)
        k).isSome = true) ∧
    (isSpecialKey cfg k = false →
      ∃ n, Trie.getNode ((WordPieceTokenizer.new cfg V unk maxc sa lc).trie) k
        = some n ∧ Trie.is_word n = true) := by
  constructor
  · intro hsp
    have hproj : (WordPieceTokenizer.new cfg V unk maxc sa lc).special_tokens
        = vocabSpecials cfg V := rfl
    rw [hproj]
    exact vocabSpecials_mem hmem hsp
  · intro hsp
    obtain ⟨n0, hn0, hw0⟩ := vocabTrie_word_any hmem hsp
    have hproj : (WordPieceTokenizer.new cfg V unk maxc sa lc).trie
        = Trie.build_failure_links (vocabTrie cfg V) := rfl
    rw [hproj]
    have hobs2 : (Trie.getNode (Trie.build_failure_links (vocabTrie cfg V)) k).map
        obsW = some (obsW n0) :=
      (getNode_build_obs (t := vocabTrie cfg V) (p := k)).trans
        (by rw [hn0]; rfl)
    obtain ⟨n1, hn1, hofn⟩ := Option.map_eq_some'.mp hobs2
    exact ⟨n1, hn1, by rw [(obsW_eq hofn).1, hw0]⟩

theorem claim_C8_amended_witness :
    (alLookup ((WordPieceTokenizer.new asciiCfg exampleVocab ("[UNK]".toList) 200
      true true).special_tokens) ("[UNK]".toList)).isSome = true ∧
    (Trie.getNode ((WordPieceTokenizer.new asciiCfg exampleVocab ("[UNK]".toList)
      200 true true).trie) ("un".toList)).isSome = true := by
  constructor
  · exact (claim_C8_amended asciiCfg exampleVocab ("[UNK]".toList) 200 true true
      ("[UNK]".toList) 0 (by decide) ).1 (by decide)
  · obtain ⟨n, hn, _⟩ := (claim_C8_amended asciiCfg exampleVocab ("[UNK]".toList)
      200 true true ("un".toList) 10 (by decide) ).2 (by decide)
    rw [hn]
    rfl
